import Mathlib

/-!
Shallow embedding of the mini-gfs coordinator (placement, membership and
rebalance engine) from `src/coordinator/consistent_hash.py`,
`src/coordinator/metadata.py`, `src/coordinator/coordinator.py`,
`src/coordinator/coordinator_service.py` and
`src/utils/decorator_utils.py`.

Modelling conventions:
* Python `dict`s become association lists (`List (key × value)`); the
  coordinator never creates duplicate keys.
* `ChunkServerInfo` objects are shared mutable records keyed by their
  `address` (the dataclass hashes and compares by `address` alone), so the
  ring, the node set and `chunk_locations` store addresses and every field
  mutation goes through the membership table `chunk_servers`.
* `ChunkInfo` is a wrapper around `chunk_handle`; a Python `Set[ChunkInfo]`
  becomes a duplicate-free `List String` of handles.
* MD5 (`ConsistentHash.hash`) is an opaque deterministic digest; it is
  embedded as an explicit function field `hashFn : String → Nat`.  Facts
  that depend on the absence of digest collisions take the collision
  freedom of the finitely many keys in play as a hypothesis.
* `time.time()` becomes an explicit `now : Nat` argument; the comparison
  `current_time - last_update <= interval` over floats agrees with
  truncated `Nat` subtraction whenever the difference is compared with a
  non-negative bound, which is the only use in the source.
* Exceptions become `Except`; the `zerorpc` service facade wraps them via
  `DecoratorUtils.exception_logging_decorator`.
-/

namespace MiniGFS

/-- `coordinator/metadata.py`: `ChunkServerStatus` (INITIAL = -1, HEALTHY = 0,
SUSPECT = 1, FAILED = 2). -/
inductive ChunkServerStatus where
  | INITIAL
  | HEALTHY
  | SUSPECT
  | FAILED
deriving DecidableEq, Repr

/-- `coordinator/metadata.py`: `ChunkServerInfo` minus the `address` field,
which serves as the key of the membership table. `chunks` is the set of chunk
handles held, kept as a duplicate-free list. -/
structure ServerInfo where
  status : ChunkServerStatus
  remains : Int
  last_update : Nat
  chunks : List String
deriving DecidableEq, Repr

/-- `coordinator/metadata.py`: `FileInfo` (the `file_name` field is the key of
the file table; `chunks` stores the handles of the `ChunkInfo` list). -/
structure FileInfo where
  version : Nat
  chunks : List String
deriving DecidableEq, Repr

/-- Python `d[k]` / `d.get(k)` on an association list. -/
def alookup {β : Type} : List (String × β) → String → Option β
  | [], _ => none
  | (k, v) :: rest, key => if k = key then some v else alookup rest key

/-- Python `d[k] = v`: replace the binding if present, else append. -/
def aset {β : Type} : List (String × β) → String → β → List (String × β)
  | [], key, v => [(key, v)]
  | (k, w) :: rest, key, v =>
    if k = key then (key, v) :: rest else (k, w) :: aset rest key v

/-- Python `del d[k]` (call sites guard on membership first). -/
def aerase {β : Type} : List (String × β) → String → List (String × β)
  | [], _ => []
  | (k, w) :: rest, key => if k = key then rest else (k, w) :: aerase rest key

/-- Python `set.add` on a duplicate-free list. -/
def saddOne (l : List String) (x : String) : List String :=
  if x ∈ l then l else l ++ [x]

/-- Adding several elements to a Python set. -/
def saddAll (l : List String) (xs : List String) : List String :=
  xs.foldl saddOne l

/-- The hash ring: `SortedDict[int, ChunkServerInfo]`, kept as a list of
(hash point, server address) pairs sorted by strictly increasing hash. -/
abbrev Ring := List (Nat × String)

/-- `SortedDict` assignment `ring[h] = a`: insert in sorted position,
overwriting an existing entry with the same key. -/
def ringInsert : Ring → Nat → String → Ring
  | [], h, a => [(h, a)]
  | (k, b) :: rest, h, a =>
    if h < k then (h, a) :: (k, b) :: rest
    else if h = k then (h, a) :: rest
    else (k, b) :: ringInsert rest h a

/-- `del ring[h]` guarded by `h in ring`: drop the entry with key `h`. -/
def ringErase : Ring → Nat → Ring
  | [], _ => []
  | (k, b) :: rest, h => if k = h then rest else (k, b) :: ringErase rest h

/-- The virtual-node key `f"{address}_{i}"`. -/
def vnodeKey (addr : String) (i : Nat) : String :=
  addr ++ "_" ++ toString i

/-- `coordinator/consistent_hash.py`: the `ConsistentHash` state.  `hashFn`
embeds the MD5-based `hash` method; `nodes` is the physical-node set (by
address). -/
structure ConsistentHash where
  hashFn : String → Nat
  virtual_nodes : Nat
  nodes : List String
  ring : Ring

/-- `ConsistentHash.__init__(virtual_nodes)`. -/
def ConsistentHash.init (hashFn : String → Nat) (virtual_nodes : Nat := 20) :
    ConsistentHash :=
  { hashFn := hashFn, virtual_nodes := virtual_nodes, nodes := [], ring := [] }

/-- `ConsistentHash.find_predecessor`: on the sorted ring, the entry just
before the `bisect_left` position of `node_hash`, wrapping to the last entry.
On a sorted ring the entries with key `< node_hash` form a prefix whose last
element is exactly `ring[bisect_left(node_hash) - 1]`. -/
def find_predecessor (ring : Ring) (node_hash : Nat) : Option String :=
  match ring with
  | [] => none
  | _ =>
    match (ring.filter (fun p => decide (p.1 < node_hash))).getLast? with
    | some p => some p.2
    | none => (ring.getLast?).map Prod.snd

/-- Membership table: `Coordinator.chunk_servers`, address → record. -/
abbrev Table := List (String × ServerInfo)

/-- The chunk set of the server object at address `a` (empty if absent). -/
def chunksOf (tbl : Table) (a : String) : List String :=
  ((alookup tbl a).map ServerInfo.chunks).getD []

/-- Overwrite the chunk set of the server object at address `a`. -/
def setChunks (tbl : Table) (a : String) (cs : List String) : Table :=
  match alookup tbl a with
  | some info => aset tbl a { info with chunks := cs }
  | none => tbl

/-- One iteration `i` of `ConsistentHash.migrate_data_to_new_node`: find the
predecessor of the `i`-th virtual hash of the new node, move every chunk of
the predecessor whose handle hashes `≤` that virtual hash into the new node's
chunk set (the injected `migrate_func` is `Coordinator.migrate`, whose body is
a TODO stub `...`, hence has no further effect). -/
def migrateStep (hashFn : String → Nat) (ring : Ring) (newAddr : String)
    (tbl : Table) (i : Nat) : Table :=
  let node_hash := hashFn (vnodeKey newAddr i)
  match find_predecessor ring node_hash with
  | none => tbl
  | some pred =>
    let affected := (chunksOf tbl pred).filter fun c => decide (hashFn c ≤ node_hash)
    let kept := (chunksOf tbl pred).filter fun c => decide (node_hash < hashFn c)
    let tbl1 := setChunks tbl pred kept
    setChunks tbl1 newAddr (saddAll (chunksOf tbl1 newAddr) affected)

/-- `ConsistentHash.migrate_data_to_new_node` (run before the new node's
hashes are inserted, so the ring seen by every iteration excludes them). -/
def migrateData (ch : ConsistentHash) (tbl : Table) (newAddr : String) : Table :=
  (List.range ch.virtual_nodes).foldl (migrateStep ch.hashFn ch.ring newAddr) tbl

/-- `ConsistentHash.add_node`: run the migration sweep, then insert the
`virtual_nodes` virtual hashes and add the node to the physical set. -/
def ConsistentHash.add_node (ch : ConsistentHash) (tbl : Table) (node : String) :
    ConsistentHash × Table :=
  let tbl1 := migrateData ch tbl node
  let ring1 := (List.range ch.virtual_nodes).foldl
    (fun r i => ringInsert r (ch.hashFn (vnodeKey node i)) node) ch.ring
  ({ ch with ring := ring1, nodes := saddOne ch.nodes node }, tbl1)

/-- `ConsistentHash.remove_node`: delete the `virtual_nodes` virtual hashes of
`node_addr`, then drop the node from the physical set.  The subsequent
`distribute_data_from_removed_node` only calls `get_nodes` (pure) and the
injected `distribute_func`, which is `Coordinator.redistribute`, a TODO stub
`...`, so it changes no state. -/
def ConsistentHash.remove_node (ch : ConsistentHash) (node_addr : String) :
    ConsistentHash :=
  let ring1 := (List.range ch.virtual_nodes).foldl
    (fun r i => ringErase r (ch.hashFn (vnodeKey node_addr i))) ch.ring
  { ch with ring := ring1, nodes := ch.nodes.filter (fun a => a != node_addr) }

/-- The collection loop of `ConsistentHash.get_nodes`: walk the visit list,
append each address not yet collected, and stop as soon as the collected list
reaches `replica_count`. -/
def scanNodes (replica_count : Nat) : List String → List String → List String
  | [], acc => acc
  | a :: rest, acc =>
    let acc1 := if a ∈ acc then acc else acc ++ [a]
    if acc1.length = replica_count then acc1 else scanNodes replica_count rest acc1

/-- `ConsistentHash.get_nodes`: on an empty ring, `replica_count` `None`
placeholders; otherwise scan clockwise from the `bisect_right` position of
`hash(key)` through at most two full turns, collecting distinct physical
addresses.  On the sorted ring the `bisect_right` index equals the number of
entries with key `≤ hash(key)`, and the `2·len` wrapped indices visit the
rotation of the ring starting there, twice. -/
def ConsistentHash.get_nodes (ch : ConsistentHash) (key : String)
    (replica_count : Nat) : List (Option String) :=
  if ch.ring.isEmpty then List.replicate replica_count none
  else
    let key_hash := ch.hashFn key
    let start := (ch.ring.filter (fun p => decide (p.1 ≤ key_hash))).length
    let addrs := ch.ring.map Prod.snd
    let rotated := addrs.drop start ++ addrs.take start
    (scanNodes replica_count (rotated ++ rotated) []).map some

/-- Python exceptions observable through `Coordinator.get_file`. -/
inductive PyErr where
  | keyError (msg : String)
  | attributeError (msg : String)
deriving DecidableEq, Repr

/-- `coordinator/coordinator.py`: the `Coordinator` state. -/
structure CoordState where
  consistent_hash : ConsistentHash
  chunk_servers : Table
  files : List (String × FileInfo)
  chunk_locations : List (String × List (Option String))
  heartbeat_check_interval : Nat

/-- `Coordinator.__init__(hearbeat_check_interval)`; the `ConsistentHash` is
built with the constructor's `virtual_nodes` parameter (default 20, the value
the coordinator itself uses). -/
def Coordinator.init (hashFn : String → Nat) (virtual_nodes : Nat := 20)
    (heartbeat_check_interval : Nat := 10) : CoordState :=
  { consistent_hash := ConsistentHash.init hashFn virtual_nodes,
    chunk_servers := [], files := [], chunk_locations := [],
    heartbeat_check_interval := heartbeat_check_interval }

/-- `Coordinator.register_chunk_server`: raise `KeyError` when the address is
already known, else insert a fresh INITIAL record. -/
def Coordinator.register_chunk_server (st : CoordState) (addr : String) :
    Except String CoordState :=
  if (alookup st.chunk_servers addr).isSome then
    Except.error ("Chunk server " ++ addr ++ " already exists.")
  else
    Except.ok { st with chunk_servers :=
      st.chunk_servers ++ [(addr,
        { status := ChunkServerStatus.INITIAL, remains := 0, last_update := 0,
          chunks := [] })] }

/-- `Coordinator.heartbeat`: warn and ignore when the address is unknown, else
set `last_update := now` and `remains`. -/
def Coordinator.heartbeat (st : CoordState) (addr : String) (remains : Int)
    (now : Nat) : CoordState :=
  match alookup st.chunk_servers addr with
  | none => st
  | some info =>
    let info1 := { info with last_update := now, remains := remains }
    { st with chunk_servers := aset st.chunk_servers addr info1 }

/-- `Coordinator.activate_chunk_server`: add the server to the ring (with the
`Coordinator.migrate` callback, a TODO stub). -/
def Coordinator.activate_chunk_server (st : CoordState) (addr : String) :
    CoordState :=
  let p := st.consistent_hash.add_node st.chunk_servers addr
  { st with consistent_hash := p.1, chunk_servers := p.2 }

/-- `Coordinator.deactivate_chunk_server`: remove the server from the ring
(with the `Coordinator.redistribute` callback, a TODO stub). -/
def Coordinator.deactivate_chunk_server (st : CoordState) (addr : String) :
    CoordState :=
  { st with consistent_hash := st.consistent_hash.remove_node addr }

/-- `Coordinator.unregister_chunk_server`: warn-only when unknown, else
deactivate then delete the record. -/
def Coordinator.unregister_chunk_server (st : CoordState) (addr : String) :
    CoordState :=
  if (alookup st.chunk_servers addr).isSome then
    let st1 := Coordinator.deactivate_chunk_server st addr
    { st1 with chunk_servers := aerase st1.chunk_servers addr }
  else st

/-- Overwrite the status of the server object at address `a`. -/
def setStatus (tbl : Table) (a : String) (s : ChunkServerStatus) : Table :=
  match alookup tbl a with
  | some info => aset tbl a { info with status := s }
  | none => tbl

/-- The body of `Coordinator.heartbeat_check` for one server record: fresh
heartbeat (`now - last_update ≤ interval`) activates INITIAL/FAILED servers
and marks the record HEALTHY; a timeout demotes HEALTHY to SUSPECT, and
SUSPECT to FAILED followed by deactivation. -/
def sweepServer (now : Nat) (st : CoordState) (addr : String) : CoordState :=
  match alookup st.chunk_servers addr with
  | none => st
  | some info =>
    if now - info.last_update ≤ st.heartbeat_check_interval then
      let st1 :=
        if info.status = ChunkServerStatus.FAILED ∨
            info.status = ChunkServerStatus.INITIAL
        then Coordinator.activate_chunk_server st addr else st
      { st1 with chunk_servers :=
          setStatus st1.chunk_servers addr ChunkServerStatus.HEALTHY }
    else
      if info.status = ChunkServerStatus.HEALTHY then
        { st with chunk_servers :=
            setStatus st.chunk_servers addr ChunkServerStatus.SUSPECT }
      else if info.status = ChunkServerStatus.SUSPECT then
        let tbl1 := setStatus st.chunk_servers addr ChunkServerStatus.FAILED
        Coordinator.deactivate_chunk_server { st with chunk_servers := tbl1 } addr
      else st

/-- `Coordinator.heartbeat_check` (one sweep, at time `now`): iterate over the
membership table values in order. -/
def Coordinator.heartbeat_check (now : Nat) (st : CoordState) : CoordState :=
  (st.chunk_servers.map Prod.fst).foldl (sweepServer now) st

/-- `Coordinator.get_chunk_handle`. -/
def get_chunk_handle (file_stem : String) (version : Nat) (chunk_idx : Nat)
    (file_suffix : String) : String :=
  file_stem ++ "_v" ++ toString version ++ "_chunk" ++ toString chunk_idx
    ++ "." ++ file_suffix

/-- Accumulator of the chunk loop of `Coordinator.write_file`: the file's
chunk list (mutated by `append`), the fresh `replicas` dict and the global
`chunk_locations` dict. -/
structure WriteAcc where
  fchunks : List String
  replicas : List (String × List String)
  locations : List (String × List (Option String))

/-- One iteration of the chunk loop of `Coordinator.write_file`: form the
handle, append it to the file's chunk list, select servers via `get_nodes`,
record the non-null addresses in `replicas` and the raw selection in
`chunk_locations`. -/
def writeStep (ch : ConsistentHash) (file_stem file_suffix : String)
    (version replica : Nat) (acc : WriteAcc) (i : Nat) : WriteAcc :=
  let handle := get_chunk_handle file_stem version i file_suffix
  let servers := ch.get_nodes handle replica
  { fchunks := acc.fchunks ++ [handle],
    replicas := aset acc.replicas handle (servers.filterMap id),
    locations := aset acc.locations handle servers }

/-- `Coordinator.write_file`: look up or create the file record, increment its
version, run the chunk loop, store the record, and return the `replicas`
map.  A short server list is logged as a warning only. -/
def Coordinator.write_file (st : CoordState) (file_stem file_suffix : String)
    (chunk_num replica : Nat) : List (String × List String) × CoordState :=
  let file_name := file_stem ++ "." ++ file_suffix
  let file := (alookup st.files file_name).getD { version := 0, chunks := [] }
  let version := file.version + 1
  let acc := (List.range chunk_num).foldl
    (writeStep st.consistent_hash file_stem file_suffix version replica)
    { fchunks := file.chunks, replicas := [], locations := st.chunk_locations }
  ( acc.replicas,
    { st with
      files := aset st.files file_name { version := version, chunks := acc.fchunks },
      chunk_locations := acc.locations } )

/-- The comprehension `[cs.address for cs in chunk_locations[handle]]`: a
`None` entry raises `AttributeError`. -/
def locationAddrs : List (Option String) → Except PyErr (List String)
  | [] => Except.ok []
  | none :: _ =>
    Except.error (PyErr.attributeError "NoneType object has no attribute address")
  | some a :: rest => (locationAddrs rest).map (fun l => a :: l)

/-- The chunk loop of `Coordinator.get_file`: `chunk_locations[handle]` raises
`KeyError` when the handle is unmapped. -/
def collectChunks (locs : List (String × List (Option String))) :
    List String → Except PyErr (List (String × List String))
  | [] => Except.ok []
  | h :: rest =>
    match alookup locs h with
    | none => Except.error (PyErr.keyError h)
    | some l =>
      match locationAddrs l with
      | Except.error e => Except.error e
      | Except.ok addrs => (collectChunks locs rest).map (fun t => (h, addrs) :: t)

/-- `Coordinator.get_file`: `None` when the file is unknown, else the chunk
handles in insertion order paired with their replica addresses. -/
def Coordinator.get_file (st : CoordState) (file_stem file_suffix : String) :
    Except PyErr (Option (List (String × List String))) :=
  let file_name := file_stem ++ "." ++ file_suffix
  match alookup st.files file_name with
  | none => Except.ok none
  | some file => (collectChunks st.chunk_locations file.chunks).map some

/-- Modelled from the spec: `Coordinator.delete_file` is missing from
`src/coordinator/coordinator.py` (only the facade
`CoordinatorService.delete_file` and the tests reference it).  Per the spec:
remove the file record; remove each of that file's chunk handles from every
holder's chunk set and from `chunk_locations`; no error if the file is
absent. -/
def Coordinator.delete_file (st : CoordState) (file_stem file_suffix : String) :
    CoordState :=
  let file_name := file_stem ++ "." ++ file_suffix
  match alookup st.files file_name with
  | none => st
  | some file =>
    { st with
      files := aerase st.files file_name,
      chunk_servers := st.chunk_servers.map (fun p =>
        (p.1, { p.2 with chunks := p.2.chunks.filter (fun c => decide (c ∉ file.chunks)) })),
      chunk_locations := file.chunks.foldl aerase st.chunk_locations }

/-- The externally driven coordinator events: RPC calls plus the periodic
heartbeat sweep.  `activate`/`deactivate` are internal to the sweep and to
`unregister`. -/
inductive Op where
  | register (addr : String)
  | unregister (addr : String)
  | heartbeat (addr : String) (remains : Int) (now : Nat)
  | writeFile (file_stem file_suffix : String) (chunk_num replica : Nat)
  | deleteFile (file_stem file_suffix : String)
  | sweep (now : Nat)

/-- The state effect of one event; a `register` of a duplicate address raises,
which the service boundary turns into an error payload, leaving the state
unchanged. -/
def runOp (st : CoordState) : Op → CoordState
  | Op.register addr =>
    match Coordinator.register_chunk_server st addr with
    | Except.ok st1 => st1
    | Except.error _ => st
  | Op.unregister addr => Coordinator.unregister_chunk_server st addr
  | Op.heartbeat addr remains now => Coordinator.heartbeat st addr remains now
  | Op.writeFile a b n r => (Coordinator.write_file st a b n r).2
  | Op.deleteFile a b => Coordinator.delete_file st a b
  | Op.sweep now => Coordinator.heartbeat_check now st

/-- A sequence of coordinator events. -/
def runOps (ops : List Op) (st : CoordState) : CoordState :=
  ops.foldl runOp st

/-- `utils/decorator_utils.py`: an RPC handler result, either the wrapped
call's value or the error-message payload string. -/
inductive RpcReturn (α : Type) where
  | value (a : α)
  | errorString (s : String)

/-- An RPC handler result paired with the messages logged at error level. -/
structure LoggedReturn (α : Type) where
  ret : RpcReturn α
  errorLog : List String

/-- The ASCII single-quote character used by the f-string of the decorator. -/
def sq : String := (Char.ofNat 39).toString

/-- `DecoratorUtils.timing_decorator`: records timing statistics (out of
scope) and returns the wrapped call's outcome unchanged. -/
def DecoratorUtils.timing_decorator {α : Type} (call : Except String α) :
    Except String α :=
  call

/-- `DecoratorUtils.exception_logging_decorator`: return the wrapped call's
value on success; on any exception, log
`f"Error in [fn]: [e]"` at error level and return that string. -/
def DecoratorUtils.exception_logging_decorator {α : Type} (funcName : String)
    (call : Except String α) : LoggedReturn α :=
  match call with
  | Except.ok a => { ret := RpcReturn.value a, errorLog := [] }
  | Except.error e =>
    let msg := "Error in " ++ sq ++ funcName ++ sq ++ ": " ++ e
    { ret := RpcReturn.errorString msg, errorLog := [msg] }

/-- `CoordinatorService.register_chunk_server`: the facade operation, the core
call wrapped by the timing and exception-logging decorators (exception
boundary outermost). -/
def CoordinatorService.register_chunk_server (st : CoordState) (addr : String) :
    LoggedReturn CoordState :=
  DecoratorUtils.exception_logging_decorator "register_chunk_server"
    (DecoratorUtils.timing_decorator (Coordinator.register_chunk_server st addr))

/-- The physical addresses of a ring. -/
def ringAddrs (r : Ring) : List String := r.map Prod.snd

/-- The addresses known to the membership table. -/
def stAddrs (st : CoordState) : List String := st.chunk_servers.map Prod.fst

/-- The record is present with status HEALTHY or SUSPECT: the statuses whose
servers the sweep keeps on the ring. -/
def statusHS : Option ServerInfo → Prop
  | some info => info.status = ChunkServerStatus.HEALTHY ∨
      info.status = ChunkServerStatus.SUSPECT
  | none => False

instance statusHS.dec (o : Option ServerInfo) : Decidable (statusHS o) :=
  match o with
  | some _ => inferInstanceAs (Decidable (_ ∨ _))
  | none => inferInstanceAs (Decidable False)

/-- Collision freedom of the digest on the virtual-node keys of the addresses
in `A`: the hypothesis under which the MD5-based placement of the source is
analysed (the spec treats digest collisions as astronomically rare). -/
def HashOk (hashFn : String → Nat) (V : Nat) (A : List String) : Prop :=
  ∀ a ∈ A, ∀ b ∈ A, ∀ i ∈ List.range V, ∀ j ∈ List.range V,
    hashFn (vnodeKey a i) = hashFn (vnodeKey b j) → a = b ∧ i = j

instance HashOk.dec (hashFn : String → Nat) (V : Nat) (A : List String) :
    Decidable (HashOk hashFn V A) := by
  unfold HashOk
  infer_instance

/-- The vnode hash points of address `a`. -/
def vnodeHashes (hashFn : String → Nat) (V : Nat) (a : String) : List Nat :=
  (List.range V).map (fun i => hashFn (vnodeKey a i))

/-- The coordinator's ring/membership invariant: table keys are distinct, the
ring is sorted by strictly increasing hash point, every ring entry belongs to
a HEALTHY-or-SUSPECT table record and sits at one of its vnode hash points,
and every HEALTHY-or-SUSPECT record has all of its vnode hash points on the
ring. -/
def Inv (st : CoordState) : Prop :=
  (st.chunk_servers.map Prod.fst).Nodup ∧
  List.Pairwise (fun p q : Nat × String => p.1 < q.1) st.consistent_hash.ring ∧
  (∀ p ∈ st.consistent_hash.ring,
    statusHS (alookup st.chunk_servers p.2) ∧
    p.1 ∈ vnodeHashes st.consistent_hash.hashFn st.consistent_hash.virtual_nodes p.2) ∧
  (∀ q ∈ st.chunk_servers,
    (q.2.status = ChunkServerStatus.HEALTHY ∨ q.2.status = ChunkServerStatus.SUSPECT) →
    ∀ h ∈ vnodeHashes st.consistent_hash.hashFn st.consistent_hash.virtual_nodes q.1,
      (h, q.1) ∈ st.consistent_hash.ring)

instance Inv.dec (st : CoordState) : Decidable (Inv st) := by
  unfold Inv
  infer_instance

/-- The register addresses of an event sequence (the only way a new address
enters the membership table). -/
def opAddrs : List Op → List String
  | [] => []
  | Op.register a :: rest => a :: opAddrs rest
  | _ :: rest => opAddrs rest

/-- Collision freedom phrased on a coordinator state's own digest and V. -/
def chHashOk (st : CoordState) (A : List String) : Prop :=
  HashOk st.consistent_hash.hashFn st.consistent_hash.virtual_nodes A

instance chHashOk.dec (st : CoordState) (A : List String) :
    Decidable (chHashOk st A) := by
  unfold chHashOk
  infer_instance

/-- The status a single sweep step gives a record, as a function of the sweep
time: fresh heartbeats yield HEALTHY (activating INITIAL/FAILED on the way),
a timeout demotes HEALTHY to SUSPECT and SUSPECT to FAILED, and leaves
INITIAL/FAILED alone. -/
def sweepStatus (T now : Nat) (i : ServerInfo) : ChunkServerStatus :=
  if now - i.last_update ≤ T then ChunkServerStatus.HEALTHY
  else match i.status with
    | ChunkServerStatus.HEALTHY => ChunkServerStatus.SUSPECT
    | ChunkServerStatus.SUSPECT => ChunkServerStatus.FAILED
    | s => s

/-- A small stand-in digest for concrete evaluations (MD5 is opaque; only the
values at the finitely many keys of a run matter). -/
def egHash : String → Nat := fun s =>
  if s = "a_0" then 10 else if s = "a_1" then 20
  else if s = "b_0" then 5 else if s = "b_1" then 15
  else if s = "f_v1_chunk0.txt" then 12
  else if s = "f_v2_chunk0.txt" then 13
  else 0

/-- A coordinator (V = 2, interval 10) in which server `"a"` has been
registered, has heartbeated at time 100, and was activated by the sweep at
time 100. -/
def egActive : CoordState :=
  runOps [Op.register "a", Op.heartbeat "a" 7 100, Op.sweep 100]
    (Coordinator.init egHash 2 10)

/-! ### Association-list lemmas -/

theorem alookup_aset_self {β : Type} (l : List (String × β)) (k : String) (v : β) :
    alookup (aset l k v) k = some v := by
  induction l with
  | nil => simp [aset, alookup]
  | cons p rest ih =>
    by_cases h : p.1 = k
    · simp [aset, h, alookup]
    · simp [aset, h, alookup, ih]

theorem alookup_aset_ne {β : Type} (l : List (String × β)) (k k' : String) (v : β)
    (h : k' ≠ k) : alookup (aset l k v) k' = alookup l k' := by
  have h2 : ¬ k = k' := fun hk => h hk.symm
  induction l with
  | nil => simp [aset, alookup, h2]
  | cons p rest ih =>
    by_cases hp : p.1 = k
    · subst hp
      simp [aset, alookup, h2]
    · simp [aset, hp, alookup, ih]

theorem alookup_append_right {β : Type} (l : List (String × β)) (k : String)
    (v : β) (h : alookup l k = none) : alookup (l ++ [(k, v)]) k = some v := by
  induction l with
  | nil => simp [alookup]
  | cons p rest ih =>
    by_cases hp : p.1 = k
    · simp [alookup, hp] at h
    · simp only [List.cons_append, alookup, hp, if_false] at h ⊢
      exact ih h

theorem alookup_append_ne {β : Type} (l : List (String × β)) (k k' : String)
    (v : β) (h : k' ≠ k) : alookup (l ++ [(k, v)]) k' = alookup l k' := by
  have h2 : ¬ k = k' := fun hk => h hk.symm
  induction l with
  | nil => simp [alookup, h2]
  | cons p rest ih =>
    by_cases hp : p.1 = k'
    · simp [alookup, hp]
    · simp [alookup, hp, ih]

theorem alookup_map_value {β γ : Type} (f : β → γ) (l : List (String × β))
    (k : String) :
    alookup (l.map (fun p => (p.1, f p.2))) k = (alookup l k).map f := by
  induction l with
  | nil => simp [alookup]
  | cons p rest ih =>
    by_cases hp : p.1 = k
    · simp [alookup, hp]
    · simp [alookup, hp, ih]

theorem alookup_isSome_of_mem {β : Type} (p : String × β) :
    ∀ l : List (String × β), p ∈ l → (alookup l p.1).isSome := by
  intro l
  induction l with
  | nil => intro h; simp at h
  | cons q rest ih =>
    intro h
    rcases List.mem_cons.mp h with h | h
    · simp [h, alookup]
    · by_cases hq : q.1 = p.1
      · simp [alookup, hq]
      · simp only [alookup, hq, if_false]
        exact ih h

theorem mem_of_alookup_eq_some {β : Type} (k : String) (v : β) :
    ∀ l : List (String × β), alookup l k = some v → (k, v) ∈ l := by
  intro l
  induction l with
  | nil => intro h; simp [alookup] at h
  | cons p rest ih =>
    intro h
    rcases p with ⟨pk, pv⟩
    by_cases hp : pk = k
    · simp [alookup, hp] at h
      subst hp
      subst h
      exact List.mem_cons_self _ _
    · simp only [alookup, hp, if_false] at h
      exact List.mem_cons_of_mem _ (ih h)

theorem alookup_eq_none_of_not_mem {β : Type} (k : String) :
    ∀ l : List (String × β), k ∉ l.map Prod.fst → alookup l k = none := by
  intro l
  induction l with
  | nil => intro _; simp [alookup]
  | cons p rest ih =>
    intro h
    have h1 : ¬ p.1 = k := fun hk => h (by simp [hk])
    have h2 : k ∉ rest.map Prod.fst := fun hk => h (by simp [hk])
    simp [alookup, h1, ih h2]

theorem keys_aset_of_mem {β : Type} (k : String) (v : β) :
    ∀ l : List (String × β), (alookup l k).isSome →
      (aset l k v).map Prod.fst = l.map Prod.fst := by
  intro l
  induction l with
  | nil => intro h; simp [alookup] at h
  | cons p rest ih =>
    intro h
    by_cases hp : p.1 = k
    · simp [aset, hp]
    · simp only [alookup, hp, if_false] at h
      simp [aset, hp, ih h]

theorem keys_aerase_sublist {β : Type} (l : List (String × β)) (k : String) :
    ((aerase l k).map Prod.fst).Sublist (l.map Prod.fst) := by
  induction l with
  | nil => simp [aerase]
  | cons p rest ih =>
    by_cases hp : p.1 = k
    · simp [aerase, hp]
    · simp only [aerase, hp, if_false, List.map_cons]
      exact List.Sublist.cons₂ _ ih

theorem alookup_aerase_self {β : Type} (k : String) :
    ∀ l : List (String × β), (l.map Prod.fst).Nodup →
      alookup (aerase l k) k = none := by
  intro l
  induction l with
  | nil => intro _; simp [aerase, alookup]
  | cons p rest ih =>
    intro hnd
    rw [List.map_cons] at hnd
    rcases List.nodup_cons.mp hnd with ⟨h1, h2⟩
    by_cases hp : p.1 = k
    · subst hp
      simp only [aerase, if_pos rfl]
      exact alookup_eq_none_of_not_mem _ _ h1
    · simp [aerase, hp, alookup, ih h2]

theorem alookup_aerase_ne {β : Type} (l : List (String × β)) (k k' : String)
    (h : k' ≠ k) : alookup (aerase l k) k' = alookup l k' := by
  have h2 : ¬ k = k' := fun hk => h hk.symm
  induction l with
  | nil => simp [aerase]
  | cons p rest ih =>
    by_cases hp : p.1 = k
    · subst hp
      simp [aerase, alookup, h2]
    · simp [aerase, hp, alookup, ih]

theorem mem_aset {β : Type} (k : String) (v : β) (p : String × β) :
    ∀ l : List (String × β), p ∈ aset l k v → p = (k, v) ∨ p ∈ l := by
  intro l
  induction l with
  | nil => intro h; simp [aset] at h; exact Or.inl h
  | cons q rest ih =>
    intro h
    by_cases hq : q.1 = k
    · simp only [aset, hq, if_true] at h
      rcases List.mem_cons.mp h with h | h
      · exact Or.inl h
      · exact Or.inr (List.mem_cons_of_mem _ h)
    · simp only [aset, hq, if_false] at h
      rcases List.mem_cons.mp h with h | h
      · exact Or.inr (h ▸ List.mem_cons_self _ _)
      · rcases ih h with h | h
        · exact Or.inl h
        · exact Or.inr (List.mem_cons_of_mem _ h)

theorem keys_aset_mem {β : Type} (k h : String) (v : β) :
    ∀ l : List (String × β),
      h ∈ (aset l k v).map Prod.fst ↔ h = k ∨ h ∈ l.map Prod.fst := by
  intro l
  induction l with
  | nil => simp [aset]
  | cons q rest ih =>
    by_cases hq : q.1 = k
    · subst hq
      simp [aset]
    · simp only [aset, hq, if_false, List.map_cons, List.mem_cons, ih]
      tauto

theorem alookup_aerase_none_mono {β : Type} (k h : String) :
    ∀ l : List (String × β), alookup l k = none →
      alookup (aerase l h) k = none := by
  intro l
  induction l with
  | nil => intro _; simp [aerase, alookup]
  | cons q rest ih =>
    intro hl
    by_cases hq1 : q.1 = k
    · simp [alookup, hq1] at hl
    · simp only [alookup, hq1, if_false] at hl
      by_cases hqh : q.1 = h
      · simpa [aerase, hqh] using hl
      · simp only [aerase, hqh, if_false, alookup, hq1]
        exact ih hl

theorem alookup_foldl_aerase_none {β : Type} (k : String) :
    ∀ (hs : List String) (l : List (String × β)), alookup l k = none →
      alookup (hs.foldl aerase l) k = none := by
  intro hs
  induction hs with
  | nil => intro l h; simpa using h
  | cons h0 rest ih =>
    intro l h
    exact ih _ (alookup_aerase_none_mono _ _ _ h)

theorem alookup_foldl_aerase_of_mem {β : Type} (k : String) :
    ∀ (hs : List String) (l : List (String × β)),
      (l.map Prod.fst).Nodup → k ∈ hs →
      alookup (hs.foldl aerase l) k = none := by
  intro hs
  induction hs with
  | nil => intro l _ h; simp at h
  | cons h0 rest ih =>
    intro l hnd hk
    rw [List.foldl_cons]
    by_cases hkh : k = h0
    · subst hkh
      exact alookup_foldl_aerase_none _ _ _ (alookup_aerase_self _ _ hnd)
    · have hnd1 : ((aerase l h0).map Prod.fst).Nodup :=
        (keys_aerase_sublist l h0).nodup hnd
      exact ih _ hnd1 (by
        rcases List.mem_cons.mp hk with h | h
        · exact absurd h hkh
        · exact h)

theorem filterMap_id_replicate_none (r : Nat) :
    (List.replicate r (none : Option String)).filterMap id = [] := by
  induction r with
  | zero => simp
  | succ n ih => simp [List.replicate_succ, ih]

theorem get_nodes_empty (ch : ConsistentHash) (hring : ch.ring = [])
    (key : String) (r : Nat) :
    ch.get_nodes key r = List.replicate r none := by
  simp [ConsistentHash.get_nodes, hring]

/-- The chunk loop of `write_file` on an empty ring: every `replicas` value is
empty and every accumulated file chunk maps in `chunk_locations` to the
`replica_count` null placeholders. -/
theorem writeFold_empty (ch : ConsistentHash) (hring : ch.ring = [])
    (stem suffix : String) (v r : Nat) :
    ∀ (is : List Nat) (acc : WriteAcc),
      (∀ p ∈ acc.replicas, p.2 = ([] : List String)) →
      (∀ h ∈ acc.fchunks, alookup acc.locations h = some (List.replicate r none)) →
      (∀ p ∈ (is.foldl (writeStep ch stem suffix v r) acc).replicas,
        p.2 = ([] : List String)) ∧
      (∀ h ∈ (is.foldl (writeStep ch stem suffix v r) acc).fchunks,
        alookup (is.foldl (writeStep ch stem suffix v r) acc).locations h =
          some (List.replicate r none)) ∧
      (is.foldl (writeStep ch stem suffix v r) acc).fchunks.length =
        acc.fchunks.length + is.length := by
  intro is
  induction is with
  | nil => intro acc h1 h2; exact ⟨h1, h2, by simp⟩
  | cons i rest ih =>
    intro acc h1 h2
    rw [List.foldl_cons]
    have hfc : (writeStep ch stem suffix v r acc i).fchunks =
        acc.fchunks ++ [get_chunk_handle stem v i suffix] := by
      simp [writeStep]
    have hrep : (writeStep ch stem suffix v r acc i).replicas =
        aset acc.replicas (get_chunk_handle stem v i suffix) [] := by
      simp [writeStep, get_nodes_empty ch hring, filterMap_id_replicate_none]
    have hloc : (writeStep ch stem suffix v r acc i).locations =
        aset acc.locations (get_chunk_handle stem v i suffix)
          (List.replicate r none) := by
      simp [writeStep, get_nodes_empty ch hring]
    have hres := ih (writeStep ch stem suffix v r acc i)
      (by
        rw [hrep]
        intro p hp
        rcases mem_aset _ _ _ _ hp with h | h
        · rw [h]
        · exact h1 p h)
      (by
        rw [hfc, hloc]
        intro h hh
        by_cases hk : h = get_chunk_handle stem v i suffix
        · subst hk
          exact alookup_aset_self _ _ _
        · rw [alookup_aset_ne _ _ _ _ hk]
          rcases List.mem_append.mp hh with hh | hh
          · exact h2 h hh
          · simp at hh
            exact absurd hh hk)
    refine ⟨hres.1, hres.2.1, ?_⟩
    rw [hres.2.2, hfc]
    simp
    omega

/-- The chunk loop of `write_file` in general: the file's chunk list is
extended, in order, with the handles of the new generation, and the keys of
the returned `replicas` map are exactly the old keys plus those handles. -/
theorem writeFold_general (ch : ConsistentHash) (stem suffix : String)
    (v r : Nat) :
    ∀ (is : List Nat) (acc : WriteAcc),
      (is.foldl (writeStep ch stem suffix v r) acc).fchunks =
        acc.fchunks ++ is.map (fun i => get_chunk_handle stem v i suffix) ∧
      (∀ h, h ∈ (is.foldl (writeStep ch stem suffix v r) acc).replicas.map Prod.fst ↔
        (h ∈ acc.replicas.map Prod.fst ∨
          h ∈ is.map (fun i => get_chunk_handle stem v i suffix))) := by
  intro is
  induction is with
  | nil => intro acc; simp
  | cons i rest ih =>
    intro acc
    rw [List.foldl_cons]
    rcases ih (writeStep ch stem suffix v r acc i) with ⟨hfc, hkeys⟩
    constructor
    · rw [hfc]
      simp [writeStep]
    · intro h
      rw [hkeys h]
      simp only [writeStep, keys_aset_mem, List.map_cons, List.mem_cons]
      tauto

/-! ### C7: register contract -/

/-- C7: registering an unknown address creates a record with status INITIAL,
`remains = 0`, `last_update = 0` and an empty chunk set, changes no other
coordinator state (in particular the ring gains no entries); registering a
known address raises `KeyError` (the AlreadyExists error) and, as an event,
leaves all coordinator state unchanged. -/
theorem C7_register_contract (st : CoordState) (addr : String) :
    (alookup st.chunk_servers addr = none →
      ∃ st1, Coordinator.register_chunk_server st addr = Except.ok st1 ∧
        alookup st1.chunk_servers addr = some
          { status := ChunkServerStatus.INITIAL, remains := 0, last_update := 0,
            chunks := [] } ∧
        (∀ a, a ≠ addr → alookup st1.chunk_servers a = alookup st.chunk_servers a) ∧
        st1.consistent_hash = st.consistent_hash ∧
        st1.files = st.files ∧
        st1.chunk_locations = st.chunk_locations ∧
        st1.heartbeat_check_interval = st.heartbeat_check_interval)
    ∧ ((alookup st.chunk_servers addr).isSome →
        (∃ msg, Coordinator.register_chunk_server st addr = Except.error msg) ∧
        runOp st (Op.register addr) = st) := by
  constructor
  · intro hnone
    have hfalse : (alookup st.chunk_servers addr).isSome = false := by
      simp [hnone]
    refine ⟨{ st with chunk_servers := st.chunk_servers ++
        [(addr, { status := ChunkServerStatus.INITIAL, remains := 0,
                  last_update := 0, chunks := [] })] },
      ?_, ?_, ?_, rfl, rfl, rfl, rfl⟩
    · simp [Coordinator.register_chunk_server, hfalse]
    · exact alookup_append_right _ _ _ hnone
    · intro a ha
      exact alookup_append_ne _ _ _ _ ha
  · intro hsome
    constructor
    · refine ⟨"Chunk server " ++ addr ++ " already exists.", ?_⟩
      simp [Coordinator.register_chunk_server, hsome]
    · simp [runOp, Coordinator.register_chunk_server, hsome]

/-- Witness for C7 at concrete inputs: a fresh register on the initial
coordinator succeeds with the INITIAL record, and a duplicate register on
`egActive` leaves the state unchanged. -/
theorem C7_register_contract_witness :
    (∃ st1, Coordinator.register_chunk_server (Coordinator.init egHash 2 10) "a" =
        Except.ok st1 ∧
      alookup st1.chunk_servers "a" = some
        { status := ChunkServerStatus.INITIAL, remains := 0, last_update := 0,
          chunks := [] }) ∧
    runOp egActive (Op.register "a") = egActive := by
  constructor
  · rcases (C7_register_contract (Coordinator.init egHash 2 10) "a").1 (by decide)
      with ⟨st1, h1, h2, _⟩
    exact ⟨st1, h1, h2⟩
  · exact ((C7_register_contract egActive "a").2 (by decide)).2

/-! ### C8: heartbeat frame effect -/

/-- C8: for a known address, `heartbeat(addr, remains)` rewrites only that
server's `last_update` (to the current time) and `remains`, keeping its
status and chunk set (the record is `{ info with last_update, remains }`),
every other server's record, the ring, the file table and `chunk_locations`;
for an unknown address the state is unchanged. -/
theorem C8_heartbeat_frame (st : CoordState) (addr : String) (remains : Int)
    (now : Nat) :
    (∀ info, alookup st.chunk_servers addr = some info →
      alookup (Coordinator.heartbeat st addr remains now).chunk_servers addr =
        some { info with last_update := now, remains := remains } ∧
      (∀ a, a ≠ addr →
        alookup (Coordinator.heartbeat st addr remains now).chunk_servers a =
          alookup st.chunk_servers a) ∧
      (Coordinator.heartbeat st addr remains now).consistent_hash =
        st.consistent_hash ∧
      (Coordinator.heartbeat st addr remains now).files = st.files ∧
      (Coordinator.heartbeat st addr remains now).chunk_locations =
        st.chunk_locations ∧
      (Coordinator.heartbeat st addr remains now).heartbeat_check_interval =
        st.heartbeat_check_interval)
    ∧ (alookup st.chunk_servers addr = none →
        Coordinator.heartbeat st addr remains now = st) := by
  constructor
  · intro info hinfo
    have hstep : Coordinator.heartbeat st addr remains now = { st with
        chunk_servers := aset st.chunk_servers addr ({ info with last_update := now, remains := remains }) } := by
      simp [Coordinator.heartbeat, hinfo]
    rw [hstep]
    exact ⟨alookup_aset_self _ _ _, fun a ha => alookup_aset_ne _ _ _ _ ha,
      rfl, rfl, rfl, rfl⟩
  · intro hnone
    simp [Coordinator.heartbeat, hnone]

/-- Witness for C8 at concrete inputs: a heartbeat for `"a"` on `egActive`
updates exactly the two clock fields, and a heartbeat for the unknown
address `"z"` changes nothing. -/
theorem C8_heartbeat_frame_witness :
    alookup (Coordinator.heartbeat egActive "a" 42 200).chunk_servers "a" =
      some { status := ChunkServerStatus.HEALTHY, remains := 42,
             last_update := 200, chunks := [] } ∧
    Coordinator.heartbeat egActive "z" 42 200 = egActive := by
  constructor
  · have h := (C8_heartbeat_frame egActive "a" 42 200).1
      { status := ChunkServerStatus.HEALTHY, remains := 7, last_update := 100,
        chunks := [] } (by decide)
    exact h.1
  · exact (C8_heartbeat_frame egActive "z" 42 200).2 (by decide)

/-! ### C9: RPC exception boundary -/

/-- C9: for every operation name and core call, if the core call raises, the
decorated handler logs the message containing the operation name at error
level and returns it as a string payload; if the core call succeeds the
handler returns the core's result unchanged (and logs nothing at error
level).  The facade operations are exactly such decorated core calls, e.g.
`CoordinatorService.register_chunk_server`. -/
theorem C9_rpc_exception_boundary {α : Type} (funcName : String)
    (call : Except String α) :
    (∀ e, call = Except.error e →
      DecoratorUtils.exception_logging_decorator funcName
          (DecoratorUtils.timing_decorator call) =
        { ret := RpcReturn.errorString
            ("Error in " ++ sq ++ funcName ++ sq ++ ": " ++ e),
          errorLog := ["Error in " ++ sq ++ funcName ++ sq ++ ": " ++ e] })
    ∧ (∀ a, call = Except.ok a →
      DecoratorUtils.exception_logging_decorator funcName
          (DecoratorUtils.timing_decorator call) =
        { ret := RpcReturn.value a, errorLog := [] })
    ∧ (∀ st addr, CoordinatorService.register_chunk_server st addr =
        DecoratorUtils.exception_logging_decorator "register_chunk_server"
          (DecoratorUtils.timing_decorator
            (Coordinator.register_chunk_server st addr))) := by
  refine ⟨?_, ?_, fun _ _ => rfl⟩
  · intro e he
    subst he
    rfl
  · intro a ha
    subst ha
    rfl

/-- Witness for C9 at concrete inputs: an erroring core call and a
successful core call through the decorators. -/
theorem C9_rpc_exception_boundary_witness :
    DecoratorUtils.exception_logging_decorator "register_chunk_server"
        (DecoratorUtils.timing_decorator (Except.error "boom" : Except String Nat)) =
      { ret := RpcReturn.errorString
          ("Error in " ++ sq ++ "register_chunk_server" ++ sq ++ ": " ++ "boom"),
        errorLog := ["Error in " ++ sq ++ "register_chunk_server" ++ sq ++ ": " ++ "boom"] } ∧
    DecoratorUtils.exception_logging_decorator "heartbeat"
        (DecoratorUtils.timing_decorator (Except.ok 5 : Except String Nat)) =
      { ret := RpcReturn.value 5, errorLog := [] } := by
  exact ⟨(C9_rpc_exception_boundary "register_chunk_server"
      (Except.error "boom" : Except String Nat)).1 "boom" rfl,
    (C9_rpc_exception_boundary "heartbeat"
      (Except.ok 5 : Except String Nat)).2.1 5 rfl⟩

/-! ### C1: the symmetric location index is not maintained -/

/-- C1 (evaluation at the failing input): with one activated server `"a"`,
`write_file("f","txt",1,1)` records `"a"` in
`chunk_locations["f_v1_chunk0.txt"]` while the server's `chunks` set stays
empty, so `handle ∈ s.chunks ⇔ s.id ∈ chunk_locations[handle]` fails
(`Coordinator.migrate` is an unimplemented stub and `write_file` never
inserts handles into the selected servers' chunk sets). -/
theorem C1_symmetric_location_index_broken :
    alookup (Coordinator.write_file egActive "f" "txt" 1 1).2.chunk_locations
        "f_v1_chunk0.txt" = some [some "a"] ∧
    chunksOf (Coordinator.write_file egActive "f" "txt" 1 1).2.chunk_servers "a"
      = [] := by
  decide

/-! ### C10: write_file on an empty ring, and the subsequent get_file -/

/-- C10: when `write_file` runs with an empty ring, every value of the
returned map is an empty address list, `chunk_locations` maps each of the
file's (new) chunk handles to `replica` null placeholders, and a subsequent
`get_file` for that file raises `AttributeError` while dereferencing a null
location entry instead of returning chunk/empty-list pairs. -/
theorem C10_write_file_empty_ring (st : CoordState) (stem suffix : String)
    (chunk_num replica : Nat)
    (hring : st.consistent_hash.ring = [])
    (hfresh : alookup st.files (stem ++ "." ++ suffix) = none)
    (hc : 1 ≤ chunk_num) (hr : 1 ≤ replica) :
    (∀ p ∈ (Coordinator.write_file st stem suffix chunk_num replica).1,
      p.2 = ([] : List String)) ∧
    (∀ file1, alookup
        (Coordinator.write_file st stem suffix chunk_num replica).2.files
        (stem ++ "." ++ suffix) = some file1 →
      ∀ h ∈ file1.chunks, alookup
        (Coordinator.write_file st stem suffix chunk_num replica).2.chunk_locations
        h = some (List.replicate replica none)) ∧
    Coordinator.get_file
        (Coordinator.write_file st stem suffix chunk_num replica).2 stem suffix =
      Except.error (PyErr.attributeError "NoneType object has no attribute address") := by
  obtain ⟨R1, R2, R3⟩ := writeFold_empty st.consistent_hash hring stem suffix 1
    replica (List.range chunk_num)
    { fchunks := [], replicas := [], locations := st.chunk_locations }
    (by intro p hp; simp at hp) (by intro h hh; simp at hh)
  have h1 : (Coordinator.write_file st stem suffix chunk_num replica).1 =
      ((List.range chunk_num).foldl
        (writeStep st.consistent_hash stem suffix 1 replica)
        { fchunks := [], replicas := [], locations := st.chunk_locations }).replicas := by
    simp [Coordinator.write_file, hfresh]
  have h2 : (Coordinator.write_file st stem suffix chunk_num replica).2.files =
      aset st.files (stem ++ "." ++ suffix)
        { version := 1, chunks := ((List.range chunk_num).foldl
            (writeStep st.consistent_hash stem suffix 1 replica)
            { fchunks := [], replicas := [], locations := st.chunk_locations }).fchunks } := by
    simp [Coordinator.write_file, hfresh]
  have h3 : (Coordinator.write_file st stem suffix chunk_num replica).2.chunk_locations =
      ((List.range chunk_num).foldl
        (writeStep st.consistent_hash stem suffix 1 replica)
        { fchunks := [], replicas := [], locations := st.chunk_locations }).locations := by
    simp [Coordinator.write_file, hfresh]
  refine ⟨?_, ?_, ?_⟩
  · rw [h1]
    exact R1
  · intro file1 hfile1 h hh
    rw [h2, alookup_aset_self] at hfile1
    rw [h3]
    apply R2
    have : file1.chunks = ((List.range chunk_num).foldl
        (writeStep st.consistent_hash stem suffix 1 replica)
        { fchunks := [], replicas := [], locations := st.chunk_locations }).fchunks := by
      cases hfile1
      rfl
    rw [this] at hh
    exact hh
  · have hlen : ((List.range chunk_num).foldl
        (writeStep st.consistent_hash stem suffix 1 replica)
        { fchunks := [], replicas := [], locations := st.chunk_locations }).fchunks.length =
        chunk_num := by
      rw [R3]
      simp
    have hne : ((List.range chunk_num).foldl
        (writeStep st.consistent_hash stem suffix 1 replica)
        { fchunks := [], replicas := [], locations := st.chunk_locations }).fchunks ≠ [] := by
      intro hnil
      rw [hnil] at hlen
      simp at hlen
      omega
    obtain ⟨h0, t, hft⟩ := List.exists_cons_of_ne_nil hne
    have hloc0 : alookup ((List.range chunk_num).foldl
        (writeStep st.consistent_hash stem suffix 1 replica)
        { fchunks := [], replicas := [], locations := st.chunk_locations }).locations h0 =
        some (List.replicate replica none) := by
      apply R2
      rw [hft]
      exact List.mem_cons_self _ _
    obtain ⟨ρ, hρ⟩ : ∃ ρ, replica = ρ + 1 := ⟨replica - 1, by omega⟩
    have haddr : locationAddrs (List.replicate replica none) =
        Except.error (PyErr.attributeError "NoneType object has no attribute address") := by
      rw [hρ, List.replicate_succ]
      rfl
    simp only [Coordinator.get_file, h2, h3, alookup_aset_self]
    rw [hft]
    simp only [collectChunks, hloc0, haddr]
    rfl

/-- Witness for C10: a registered-but-inactive coordinator (empty ring),
`write_file("g","txt",1,2)`, then `get_file`. -/
theorem C10_write_file_empty_ring_witness :
    Coordinator.get_file
      (Coordinator.write_file (runOps [Op.register "a"] (Coordinator.init egHash 2 10))
        "g" "txt" 1 2).2 "g" "txt" =
      Except.error (PyErr.attributeError "NoneType object has no attribute address") := by
  exact (C10_write_file_empty_ring
    (runOps [Op.register "a"] (Coordinator.init egHash 2 10)) "g" "txt" 1 2
    (by decide) (by decide) (by decide) (by decide)).2.2

/-! ### C3: overwriting a file -/

/-- C3 (counterexample to the claim as stated): after two
`write_file("f","txt",1,1)` calls, `get_file` still returns the first
generation's chunk `f_v1_chunk0.txt` (and the stored version is 2), so the
chunk list is not replaced by a fresh one. -/
theorem C3_overwrite_counterexample :
    (alookup (Coordinator.write_file (Coordinator.write_file egActive "f" "txt" 1 1).2
        "f" "txt" 1 1).2.files "f.txt").map FileInfo.version = some 2 ∧
    Coordinator.get_file (Coordinator.write_file
        (Coordinator.write_file egActive "f" "txt" 1 1).2 "f" "txt" 1 1).2 "f" "txt" =
      Except.ok (some [("f_v1_chunk0.txt", ["a"]), ("f_v2_chunk0.txt", ["a"])]) := by
  exact ⟨rfl, rfl⟩

/-- C3 (amended): a repeated `write_file` increments the stored version by 1
and the keys of the returned map are exactly the new generation's handles,
but the file record's chunk list is the previous list extended (in order)
with the new generation's handles — prior generation entries remain and are
returned by `get_file`. -/
theorem C3_overwrite_appends (st : CoordState) (stem suffix : String)
    (chunk_num replica : Nat) (file : FileInfo)
    (hf : alookup st.files (stem ++ "." ++ suffix) = some file) :
    ((alookup (Coordinator.write_file st stem suffix chunk_num replica).2.files
        (stem ++ "." ++ suffix)).map FileInfo.version = some (file.version + 1)) ∧
    ((alookup (Coordinator.write_file st stem suffix chunk_num replica).2.files
        (stem ++ "." ++ suffix)).map FileInfo.chunks =
      some (file.chunks ++ (List.range chunk_num).map
        (fun i => get_chunk_handle stem (file.version + 1) i suffix))) ∧
    (∀ h, h ∈ (Coordinator.write_file st stem suffix chunk_num replica).1.map Prod.fst ↔
      h ∈ (List.range chunk_num).map
        (fun i => get_chunk_handle stem (file.version + 1) i suffix)) := by
  obtain ⟨hfc, hkeys⟩ := writeFold_general st.consistent_hash stem suffix
    (file.version + 1) replica (List.range chunk_num)
    { fchunks := file.chunks, replicas := [], locations := st.chunk_locations }
  have h1 : (Coordinator.write_file st stem suffix chunk_num replica).1 =
      ((List.range chunk_num).foldl
        (writeStep st.consistent_hash stem suffix (file.version + 1) replica)
        { fchunks := file.chunks, replicas := [], locations := st.chunk_locations }).replicas := by
    simp [Coordinator.write_file, hf]
  have h2 : (Coordinator.write_file st stem suffix chunk_num replica).2.files =
      aset st.files (stem ++ "." ++ suffix)
        { version := file.version + 1, chunks := ((List.range chunk_num).foldl
            (writeStep st.consistent_hash stem suffix (file.version + 1) replica)
            { fchunks := file.chunks, replicas := [], locations := st.chunk_locations }).fchunks } := by
    simp [Coordinator.write_file, hf]
  refine ⟨?_, ?_, ?_⟩
  · rw [h2, alookup_aset_self]
    rfl
  · rw [h2, alookup_aset_self]
    exact congrArg some hfc
  · intro h
    rw [h1, hkeys h]
    simp

/-- Witness for C3's amended theorem: the concrete double write of the
counterexample, through the general statement. -/
theorem C3_overwrite_appends_witness :
    (alookup (Coordinator.write_file (Coordinator.write_file egActive "f" "txt" 1 1).2
        "f" "txt" 1 1).2.files ("f" ++ "." ++ "txt")).map FileInfo.version = some 2 := by
  exact (C3_overwrite_appends (Coordinator.write_file egActive "f" "txt" 1 1).2
    "f" "txt" 1 1 { version := 1, chunks := ["f_v1_chunk0.txt"] } (by decide)).1

/-! ### C4: delete_file (modelled from the spec) -/

/-- C4: `delete_file` removes the file record, removes each of the file's
chunk handles from every server's chunk set and from `chunk_locations`, and
is a no-op (no error) when the file is absent.  `Coordinator.delete_file`
is modelled from the spec: the method is missing from the source (only its
facade caller and tests exist). -/
theorem C4_delete_file (st : CoordState) (stem suffix : String)
    (hndf : (st.files.map Prod.fst).Nodup)
    (hndl : (st.chunk_locations.map Prod.fst).Nodup) :
    (∀ file, alookup st.files (stem ++ "." ++ suffix) = some file →
      alookup (Coordinator.delete_file st stem suffix).files
        (stem ++ "." ++ suffix) = none ∧
      (∀ a info1, alookup (Coordinator.delete_file st stem suffix).chunk_servers a
          = some info1 → ∀ h ∈ file.chunks, h ∉ info1.chunks) ∧
      (∀ h ∈ file.chunks,
        alookup (Coordinator.delete_file st stem suffix).chunk_locations h = none)) ∧
    (alookup st.files (stem ++ "." ++ suffix) = none →
      Coordinator.delete_file st stem suffix = st) := by
  constructor
  · intro file hfile
    have hd1 : (Coordinator.delete_file st stem suffix).files =
        aerase st.files (stem ++ "." ++ suffix) := by
      simp [Coordinator.delete_file, hfile]
    have hd2 : (Coordinator.delete_file st stem suffix).chunk_servers =
        st.chunk_servers.map (fun p => (p.1,
          { p.2 with chunks := p.2.chunks.filter (fun c => decide (c ∉ file.chunks)) })) := by
      simp [Coordinator.delete_file, hfile]
    have hd3 : (Coordinator.delete_file st stem suffix).chunk_locations =
        file.chunks.foldl aerase st.chunk_locations := by
      simp [Coordinator.delete_file, hfile]
    refine ⟨?_, ?_, ?_⟩
    · rw [hd1]
      exact alookup_aerase_self _ _ hndf
    · rw [hd2]
      intro a info1 hl h hh hmem
      have hl2 : (alookup st.chunk_servers a).map (fun q : ServerInfo =>
          { status := q.status, remains := q.remains, last_update := q.last_update,
            chunks := q.chunks.filter (fun c => decide (c ∉ file.chunks)) }) = some info1 := by
        rw [← alookup_map_value]
        exact hl
      rcases Option.map_eq_some'.mp hl2 with ⟨info0, _, hinfo1⟩
      rw [← hinfo1] at hmem
      simp only [List.mem_filter] at hmem
      rcases hmem with ⟨_, hdec⟩
      rw [decide_eq_true_iff] at hdec
      exact hdec hh
    · rw [hd3]
      intro h hh
      exact alookup_foldl_aerase_of_mem _ _ _ hndl hh
  · intro hnone
    simp [Coordinator.delete_file, hnone]

/-- Witness for C4: deleting `f.txt` after a concrete write removes the file
record and the chunk's location entry. -/
theorem C4_delete_file_witness :
    alookup (Coordinator.delete_file
        (Coordinator.write_file egActive "f" "txt" 1 1).2 "f" "txt").files
      ("f" ++ "." ++ "txt") = none ∧
    alookup (Coordinator.delete_file
        (Coordinator.write_file egActive "f" "txt" 1 1).2 "f" "txt").chunk_locations
      "f_v1_chunk0.txt" = none := by
  have h := (C4_delete_file (Coordinator.write_file egActive "f" "txt" 1 1).2
    "f" "txt" (by decide) (by decide)).1
    { version := 1, chunks := ["f_v1_chunk0.txt"] } (by decide)
  exact ⟨h.1, h.2.2 "f_v1_chunk0.txt" (by decide)⟩

/-! ### C5: get_nodes postcondition -/

/-- The collection loop of `get_nodes`: starting from a duplicate-free
accumulator shorter than `r`, it returns a duplicate-free list drawn from the
visited list, of length `min r` (number of distinct elements seen). -/
theorem scanNodes_spec (r : Nat) :
    ∀ (v acc : List String), acc.Nodup → acc.length < r →
      (scanNodes r v acc).Nodup ∧
      (scanNodes r v acc).length = min r (acc ++ v).toFinset.card ∧
      (∀ a ∈ scanNodes r v acc, a ∈ acc ∨ a ∈ v) := by
  intro v
  induction v with
  | nil =>
    intro acc hnd hlt
    refine ⟨hnd, ?_, fun a ha => Or.inl ha⟩
    simp only [scanNodes, List.append_nil]
    rw [List.toFinset_card_of_nodup hnd]
    omega
  | cons x rest ih =>
    intro acc hnd hlt
    by_cases hx : x ∈ acc
    · have hs : scanNodes r (x :: rest) acc = scanNodes r rest acc := by
        simp [scanNodes, hx, hlt.ne]
      rw [hs]
      obtain ⟨n1, n2, n3⟩ := ih acc hnd hlt
      refine ⟨n1, ?_, ?_⟩
      · rw [n2]
        have hfin : (acc ++ rest).toFinset = (acc ++ x :: rest).toFinset := by
          ext a
          simp only [List.toFinset_append, Finset.mem_union, List.mem_toFinset,
            List.mem_cons]
          constructor
          · rintro (h | h)
            · exact Or.inl h
            · exact Or.inr (Or.inr h)
          · rintro (h | h | h)
            · exact Or.inl h
            · exact Or.inl (h ▸ hx)
            · exact Or.inr h
        rw [hfin]
      · intro a ha
        rcases n3 a ha with h | h
        · exact Or.inl h
        · exact Or.inr (List.mem_cons_of_mem _ h)
    · have hnd1 : (acc ++ [x]).Nodup := by
        rw [← List.concat_eq_append]
        exact List.Nodup.concat hx hnd
      have hlen1 : (acc ++ [x]).length = acc.length + 1 := by simp
      by_cases hlen : (acc ++ [x]).length = r
      · have hs : scanNodes r (x :: rest) acc = acc ++ [x] := by
          simp [scanNodes, hx, hlen]
        rw [hs]
        refine ⟨hnd1, ?_, ?_⟩
        · have hsub : (acc ++ [x]).toFinset ⊆ (acc ++ x :: rest).toFinset := by
            intro a ha
            simp only [List.toFinset_append, Finset.mem_union, List.mem_toFinset,
              List.mem_singleton, List.mem_cons] at ha ⊢
            tauto
          have hle : r ≤ (acc ++ x :: rest).toFinset.card := by
            calc r = (acc ++ [x]).toFinset.card := by
                  rw [List.toFinset_card_of_nodup hnd1, hlen]
              _ ≤ _ := Finset.card_le_card hsub
          rw [hlen, Nat.min_eq_left hle]
        · intro a ha
          simp only [List.mem_append, List.mem_singleton] at ha
          rcases ha with h | h
          · exact Or.inl h
          · exact Or.inr (h ▸ List.mem_cons_self _ _)
      · have hlt1 : (acc ++ [x]).length < r := by omega
        have hlen2 : ¬ (acc.length + 1 = r) := by omega
        have hs : scanNodes r (x :: rest) acc = scanNodes r rest (acc ++ [x]) := by
          simp [scanNodes, hx, hlen2]
        rw [hs]
        obtain ⟨n1, n2, n3⟩ := ih (acc ++ [x]) hnd1 hlt1
        refine ⟨n1, ?_, ?_⟩
        · rw [n2]
          have hfin : (acc ++ [x] ++ rest).toFinset = (acc ++ x :: rest).toFinset := by
            ext a
            simp only [List.toFinset_append, Finset.mem_union, List.mem_toFinset,
              List.mem_singleton, List.mem_cons]
            tauto
          rw [hfin]
        · intro a ha
          rcases n3 a ha with h | h
          · simp only [List.mem_append, List.mem_singleton] at h
            rcases h with h | h
            · exact Or.inl h
            · exact Or.inr (h ▸ List.mem_cons_self _ _)
          · exact Or.inr (List.mem_cons_of_mem _ h)

/-- C5 (counterexample to the claim as stated, at `N = 0`): on a non-empty
ring with one distinct server, `get_nodes(key, 0)` returns one server, not
`min(0, 1) = 0` of them (the loop's termination check only fires after a
node has been appended). -/
theorem C5_get_nodes_zero_counterexample :
    ¬ ((egActive.consistent_hash.get_nodes "k" 0).length =
      min 0 ((ringAddrs egActive.consistent_hash.ring).dedup.length)) := by
  decide

/-- C5 (amended, `N ≥ 1`): on an empty ring `get_nodes` returns exactly `N`
null placeholders; on a non-empty ring it returns non-null entries with
pairwise-distinct physical addresses drawn from the ring, of length
`min N` (number of distinct physical servers), collected by the clockwise
scan from the first virtual-node hash greater than `hash(key)` (the
definition of `get_nodes`). -/
theorem C5_get_nodes_spec (ch : ConsistentHash) (key : String) (N : Nat) :
    (ch.ring = [] → ch.get_nodes key N = List.replicate N none) ∧
    (ch.ring ≠ [] → 1 ≤ N →
      ∃ l : List String, ch.get_nodes key N = l.map some ∧ l.Nodup ∧
        l.length = min N ((ringAddrs ch.ring).dedup.length) ∧
        ∀ a ∈ l, a ∈ ringAddrs ch.ring) := by
  constructor
  · intro h
    exact get_nodes_empty ch h key N
  · intro hne hN
    have hbool : ¬ (ch.ring.isEmpty = true) := by
      simp only [List.isEmpty_iff]
      exact hne
    have hget : ch.get_nodes key N = (scanNodes N
        (((ch.ring.map Prod.snd).drop
            ((ch.ring.filter (fun p => decide (p.1 ≤ ch.hashFn key))).length) ++
          (ch.ring.map Prod.snd).take
            ((ch.ring.filter (fun p => decide (p.1 ≤ ch.hashFn key))).length) ) ++
         ((ch.ring.map Prod.snd).drop
            ((ch.ring.filter (fun p => decide (p.1 ≤ ch.hashFn key))).length) ++
          (ch.ring.map Prod.snd).take
            ((ch.ring.filter (fun p => decide (p.1 ≤ ch.hashFn key))).length) )) []).map some := by
      rw [ConsistentHash.get_nodes, if_neg hbool]
    obtain ⟨n1, n2, n3⟩ := scanNodes_spec N
      (((ch.ring.map Prod.snd).drop
          ((ch.ring.filter (fun p => decide (p.1 ≤ ch.hashFn key))).length) ++
        (ch.ring.map Prod.snd).take
          ((ch.ring.filter (fun p => decide (p.1 ≤ ch.hashFn key))).length) ) ++
       ((ch.ring.map Prod.snd).drop
          ((ch.ring.filter (fun p => decide (p.1 ≤ ch.hashFn key))).length) ++
        (ch.ring.map Prod.snd).take
          ((ch.ring.filter (fun p => decide (p.1 ≤ ch.hashFn key))).length) ))
      [] List.nodup_nil (by simpa using hN)
    refine ⟨_, hget, n1, ?_, ?_⟩
    · rw [n2]
      have hfin : (([] : List String) ++
          (((ch.ring.map Prod.snd).drop
              ((ch.ring.filter (fun p => decide (p.1 ≤ ch.hashFn key))).length) ++
            (ch.ring.map Prod.snd).take
              ((ch.ring.filter (fun p => decide (p.1 ≤ ch.hashFn key))).length) ) ++
           ((ch.ring.map Prod.snd).drop
              ((ch.ring.filter (fun p => decide (p.1 ≤ ch.hashFn key))).length) ++
            (ch.ring.map Prod.snd).take
              ((ch.ring.filter (fun p => decide (p.1 ≤ ch.hashFn key))).length) ))).toFinset =
          (ch.ring.map Prod.snd).toFinset := by
        ext a
        simp only [List.nil_append, List.toFinset_append, Finset.mem_union,
          List.mem_toFinset]
        constructor
        · rintro ((h | h) | (h | h))
          · exact List.mem_of_mem_drop h
          · exact List.mem_of_mem_take h
          · exact List.mem_of_mem_drop h
          · exact List.mem_of_mem_take h
        · intro h
          have hsplit : a ∈ (ch.ring.map Prod.snd).take
                ((ch.ring.filter (fun p => decide (p.1 ≤ ch.hashFn key))).length) ∨
              a ∈ (ch.ring.map Prod.snd).drop
                ((ch.ring.filter (fun p => decide (p.1 ≤ ch.hashFn key))).length) := by
            rw [← List.mem_append, List.take_append_drop]
            exact h
          rcases hsplit with h | h
          · exact Or.inl (Or.inr h)
          · exact Or.inl (Or.inl h)
      rw [hfin, List.card_toFinset]
      rfl
    · intro a ha
      rcases n3 a ha with h | h
      · simp at h
      · rcases List.mem_append.mp h with h | h <;>
        · rcases List.mem_append.mp h with h | h
          · exact List.mem_of_mem_drop h
          · exact List.mem_of_mem_take h

/-- Witness for C5 at concrete inputs: the empty initial ring yields three
placeholders, and the one-server ring of `egActive` yields a single
distinct address for `N = 3`. -/
theorem C5_get_nodes_spec_witness :
    (Coordinator.init egHash 2 10).consistent_hash.get_nodes "k" 3 =
      List.replicate 3 none ∧
    ∃ l : List String, egActive.consistent_hash.get_nodes "k" 3 = l.map some ∧
      l.Nodup ∧
      l.length = min 3 ((ringAddrs egActive.consistent_hash.ring).dedup.length) ∧
      ∀ a ∈ l, a ∈ ringAddrs egActive.consistent_hash.ring := by
  constructor
  · exact (C5_get_nodes_spec (Coordinator.init egHash 2 10).consistent_hash "k" 3).1
      (by decide)
  · exact (C5_get_nodes_spec egActive.consistent_hash "k" 3).2
      (by decide) (by decide)

/-! ### Ring-structure lemmas -/

theorem mem_ringInsert_weak (h : Nat) (a : String) (q : Nat × String) :
    ∀ r : Ring, q ∈ ringInsert r h a → q = (h, a) ∨ q ∈ r := by
  intro r
  induction r with
  | nil =>
    intro hq
    simp [ringInsert] at hq
    exact Or.inl hq
  | cons p rest ih =>
    intro hq
    rcases p with ⟨k, b⟩
    by_cases h1 : h < k
    · simp only [ringInsert, if_pos h1] at hq
      rcases List.mem_cons.mp hq with hq | hq
      · exact Or.inl hq
      · exact Or.inr hq
    · by_cases h2 : h = k
      · simp only [ringInsert, if_neg h1, if_pos h2] at hq
        rcases List.mem_cons.mp hq with hq | hq
        · exact Or.inl hq
        · exact Or.inr (List.mem_cons_of_mem _ hq)
      · simp only [ringInsert, if_neg h1, if_neg h2] at hq
        rcases List.mem_cons.mp hq with hq | hq
        · exact Or.inr (hq ▸ List.mem_cons_self _ _)
        · rcases ih hq with hq | hq
          · exact Or.inl hq
          · exact Or.inr (List.mem_cons_of_mem _ hq)

theorem pairwise_ringInsert (h : Nat) (a : String) :
    ∀ r : Ring, List.Pairwise (fun p q : Nat × String => p.1 < q.1) r →
      List.Pairwise (fun p q : Nat × String => p.1 < q.1) (ringInsert r h a) := by
  intro r
  induction r with
  | nil =>
    intro _
    simp [ringInsert]
  | cons p rest ih =>
    intro hs
    rcases p with ⟨k, b⟩
    rcases List.pairwise_cons.mp hs with ⟨hk, hrest⟩
    by_cases h1 : h < k
    · simp only [ringInsert, if_pos h1]
      refine List.Pairwise.cons ?_ hs
      intro q hq
      rcases List.mem_cons.mp hq with hq | hq
      · rw [hq]
        exact h1
      · exact Nat.lt_trans h1 (hk q hq)
    · by_cases h2 : h = k
      · subst h2
        simp only [ringInsert, if_neg h1, if_pos rfl]
        exact List.Pairwise.cons hk hrest
      · simp only [ringInsert, if_neg h1, if_neg h2]
        refine List.Pairwise.cons ?_ (ih hrest)
        intro q hq
        rcases mem_ringInsert_weak h a q rest hq with hq | hq
        · rw [hq]
          exact Nat.lt_of_le_of_ne (Nat.le_of_not_lt h1) (fun he => h2 he.symm)
        · exact hk q hq

theorem mem_ringInsert (h : Nat) (a : String) (q : Nat × String) :
    ∀ r : Ring, List.Pairwise (fun p q : Nat × String => p.1 < q.1) r →
      (q ∈ ringInsert r h a ↔ q = (h, a) ∨ (q ∈ r ∧ q.1 ≠ h)) := by
  intro r
  induction r with
  | nil =>
    intro _
    simp [ringInsert]
  | cons p rest ih =>
    intro hs
    rcases p with ⟨k, b⟩
    rcases List.pairwise_cons.mp hs with ⟨hk, hrest⟩
    by_cases h1 : h < k
    · simp only [ringInsert, if_pos h1]
      constructor
      · intro hq
        rcases List.mem_cons.mp hq with hq | hq
        · exact Or.inl hq
        · refine Or.inr ⟨hq, ?_⟩
          rcases List.mem_cons.mp hq with hq2 | hq2
          · rw [hq2]
            exact ne_of_gt h1
          · exact ne_of_gt (Nat.lt_trans h1 (hk q hq2))
      · rintro (hq | ⟨hq, hne⟩)
        · exact hq ▸ List.mem_cons_self _ _
        · exact List.mem_cons_of_mem _ hq
    · by_cases h2 : h = k
      · subst h2
        simp only [ringInsert, if_neg h1, if_pos rfl]
        constructor
        · intro hq
          rcases List.mem_cons.mp hq with hq | hq
          · exact Or.inl hq
          · exact Or.inr ⟨List.mem_cons_of_mem _ hq, ne_of_gt (hk q hq)⟩
        · rintro (hq | ⟨hq, hne⟩)
          · exact hq ▸ List.mem_cons_self _ _
          · rcases List.mem_cons.mp hq with hq2 | hq2
            · exact absurd (by rw [hq2] : q.1 = h) hne
            · exact List.mem_cons_of_mem _ hq2
      · simp only [ringInsert, if_neg h1, if_neg h2]
        constructor
        · intro hq
          rcases List.mem_cons.mp hq with hq | hq
          · refine Or.inr ⟨hq ▸ List.mem_cons_self _ _, ?_⟩
            rw [hq]
            exact fun he => h2 he.symm
          · rcases (ih hrest).mp hq with hq2 | ⟨hq2, hne⟩
            · exact Or.inl hq2
            · exact Or.inr ⟨List.mem_cons_of_mem _ hq2, hne⟩
        · rintro (hq | ⟨hq, hne⟩)
          · exact List.mem_cons_of_mem _ ((ih hrest).mpr (Or.inl hq))
          · rcases List.mem_cons.mp hq with hq2 | hq2
            · exact hq2 ▸ List.mem_cons_self _ _
            · exact List.mem_cons_of_mem _ ((ih hrest).mpr (Or.inr ⟨hq2, hne⟩))

theorem ringErase_sublist (h : Nat) : ∀ r : Ring, (ringErase r h).Sublist r := by
  intro r
  induction r with
  | nil => simp [ringErase]
  | cons p rest ih =>
    rcases p with ⟨k, b⟩
    by_cases hp : k = h
    · simp only [ringErase, if_pos hp]
      exact List.sublist_cons_self _ _
    · simp only [ringErase, if_neg hp]
      exact List.Sublist.cons₂ _ ih

theorem pairwise_ringErase (h : Nat) (r : Ring)
    (hs : List.Pairwise (fun p q : Nat × String => p.1 < q.1) r) :
    List.Pairwise (fun p q : Nat × String => p.1 < q.1) (ringErase r h) :=
  hs.sublist (ringErase_sublist h r)

theorem mem_ringErase (h : Nat) (q : Nat × String) :
    ∀ r : Ring, List.Pairwise (fun p q : Nat × String => p.1 < q.1) r →
      (q ∈ ringErase r h ↔ q ∈ r ∧ q.1 ≠ h) := by
  intro r
  induction r with
  | nil =>
    intro _
    simp [ringErase]
  | cons p rest ih =>
    intro hs
    rcases p with ⟨k, b⟩
    rcases List.pairwise_cons.mp hs with ⟨hk, hrest⟩
    by_cases hp : k = h
    · subst hp
      simp only [ringErase, if_pos rfl]
      constructor
      · intro hq
        exact ⟨List.mem_cons_of_mem _ hq, ne_of_gt (hk q hq)⟩
      · rintro ⟨hq, hne⟩
        rcases List.mem_cons.mp hq with hq2 | hq2
        · exact absurd (by rw [hq2] : q.1 = k) hne
        · exact hq2
    · simp only [ringErase, if_neg hp]
      constructor
      · intro hq
        rcases List.mem_cons.mp hq with hq2 | hq2
        · refine ⟨hq2 ▸ List.mem_cons_self _ _, ?_⟩
          rw [hq2]
          exact hp
        · rcases (ih hrest).mp hq2 with ⟨hq3, hne⟩
          exact ⟨List.mem_cons_of_mem _ hq3, hne⟩
      · rintro ⟨hq, hne⟩
        rcases List.mem_cons.mp hq with hq2 | hq2
        · exact hq2 ▸ List.mem_cons_self _ _
        · exact List.mem_cons_of_mem _ ((ih hrest).mpr ⟨hq2, hne⟩)

theorem pairwise_foldl_ringInsert (a : String) :
    ∀ (ks : List Nat) (r : Ring),
      List.Pairwise (fun p q : Nat × String => p.1 < q.1) r →
      List.Pairwise (fun p q : Nat × String => p.1 < q.1)
        (ks.foldl (fun r k => ringInsert r k a) r) := by
  intro ks
  induction ks with
  | nil => intro r hs; simpa using hs
  | cons k rest ih =>
    intro r hs
    rw [List.foldl_cons]
    exact ih _ (pairwise_ringInsert k a r hs)

theorem pairwise_foldl_ringErase :
    ∀ (ks : List Nat) (r : Ring),
      List.Pairwise (fun p q : Nat × String => p.1 < q.1) r →
      List.Pairwise (fun p q : Nat × String => p.1 < q.1) (ks.foldl ringErase r) := by
  intro ks
  induction ks with
  | nil => intro r hs; simpa using hs
  | cons k rest ih =>
    intro r hs
    rw [List.foldl_cons]
    exact ih _ (pairwise_ringErase k r hs)

theorem mem_foldl_ringInsert (a : String) (q : Nat × String) :
    ∀ (ks : List Nat) (r : Ring),
      List.Pairwise (fun p q : Nat × String => p.1 < q.1) r →
      (q ∈ ks.foldl (fun r k => ringInsert r k a) r ↔
        (q.2 = a ∧ q.1 ∈ ks) ∨ (q ∈ r ∧ q.1 ∉ ks)) := by
  intro ks
  induction ks with
  | nil =>
    intro r _
    simp
  | cons k rest ih =>
    intro r hs
    rw [List.foldl_cons, ih (ringInsert r k a) (pairwise_ringInsert k a r hs)]
    constructor
    · rintro (⟨ha, hk⟩ | ⟨hq, hnk⟩)
      · exact Or.inl ⟨ha, List.mem_cons_of_mem _ hk⟩
      · rcases (mem_ringInsert k a q r hs).mp hq with hq2 | ⟨hq2, hne⟩
        · refine Or.inl ⟨by rw [hq2], ?_⟩
          rw [hq2]
          exact List.mem_cons_self _ _
        · refine Or.inr ⟨hq2, ?_⟩
          intro hc
          rcases List.mem_cons.mp hc with hc | hc
          · exact hne hc
          · exact hnk hc
    · rintro (⟨ha, hk⟩ | ⟨hq, hnk⟩)
      · rcases List.mem_cons.mp hk with hk2 | hk2
        · by_cases hkr : q.1 ∈ rest
          · exact Or.inl ⟨ha, hkr⟩
          · refine Or.inr ⟨(mem_ringInsert k a q r hs).mpr (Or.inl ?_), hkr⟩
            rcases q with ⟨q1, q2⟩
            simp only at ha hk2
            rw [ha, hk2]
        · exact Or.inl ⟨ha, hk2⟩
      · have hne : q.1 ≠ k := fun hc => hnk (by rw [hc]; exact List.mem_cons_self _ _)
        have hnr : q.1 ∉ rest := fun hc => hnk (List.mem_cons_of_mem _ hc)
        exact Or.inr ⟨(mem_ringInsert k a q r hs).mpr (Or.inr ⟨hq, hne⟩), hnr⟩

theorem mem_foldl_ringErase (q : Nat × String) :
    ∀ (ks : List Nat) (r : Ring),
      List.Pairwise (fun p q : Nat × String => p.1 < q.1) r →
      (q ∈ ks.foldl ringErase r ↔ q ∈ r ∧ q.1 ∉ ks) := by
  intro ks
  induction ks with
  | nil =>
    intro r _
    simp
  | cons k rest ih =>
    intro r hs
    rw [List.foldl_cons, ih (ringErase r k) (pairwise_ringErase k r hs)]
    rw [mem_ringErase k q r hs]
    simp only [List.mem_cons, not_or]
    tauto

theorem ring_keys_nodup (r : Ring)
    (hs : List.Pairwise (fun p q : Nat × String => p.1 < q.1) r) :
    (r.map Prod.fst).Nodup :=
  (List.pairwise_map.mpr hs).imp (fun h => Nat.ne_of_lt h)

theorem alookup_of_mem_nodup {β : Type} (k : String) (v : β) :
    ∀ l : List (String × β), (k, v) ∈ l → (l.map Prod.fst).Nodup →
      alookup l k = some v := by
  intro l
  induction l with
  | nil =>
    intro h _
    simp at h
  | cons p rest ih =>
    intro h hnd
    rw [List.map_cons] at hnd
    rcases List.nodup_cons.mp hnd with ⟨h1, h2⟩
    rcases List.mem_cons.mp h with h | h
    · rw [← h]
      simp [alookup]
    · have hpk : ¬ p.1 = k := by
        intro hc
        exact h1 (by
          rw [hc]
          exact List.mem_map.mpr ⟨(k, v), h, rfl⟩)
      simp only [alookup, hpk, if_false]
      exact ih h h2

/-! ### Table-shape lemmas: chunk migration and status writes never change
the key set, and chunk migration never changes status/clock fields. -/

theorem proj_status {o1 o2 : Option ServerInfo}
    (h : o1.map (fun i => (i.status, i.last_update)) =
      o2.map (fun i => (i.status, i.last_update))) :
    o1.map ServerInfo.status = o2.map ServerInfo.status := by
  cases o1 <;> cases o2 <;> simp_all

theorem proj_last_update {o1 o2 : Option ServerInfo}
    (h : o1.map (fun i => (i.status, i.last_update)) =
      o2.map (fun i => (i.status, i.last_update))) :
    o1.map ServerInfo.last_update = o2.map ServerInfo.last_update := by
  cases o1 <;> cases o2 <;> simp_all

theorem statusHS_congr {o1 o2 : Option ServerInfo}
    (h : o1.map ServerInfo.status = o2.map ServerInfo.status) :
    statusHS o1 ↔ statusHS o2 := by
  cases o1 <;> cases o2 <;> simp_all [statusHS]

theorem keys_setChunks (tbl : Table) (a : String) (cs : List String) :
    (setChunks tbl a cs).map Prod.fst = tbl.map Prod.fst := by
  unfold setChunks
  cases h : alookup tbl a with
  | none => rfl
  | some info => exact keys_aset_of_mem _ _ _ (by simp [h])

theorem alookup_setChunks_proj (tbl : Table) (a : String) (cs : List String)
    (b : String) :
    (alookup (setChunks tbl a cs) b).map (fun i => (i.status, i.last_update)) =
      (alookup tbl b).map (fun i => (i.status, i.last_update)) := by
  unfold setChunks
  cases h : alookup tbl a with
  | none => rfl
  | some info =>
    by_cases hb : b = a
    · subst hb
      rw [alookup_aset_self, h]
      rfl
    · rw [alookup_aset_ne _ _ _ _ hb]

theorem keys_setStatus (tbl : Table) (a : String) (s : ChunkServerStatus) :
    (setStatus tbl a s).map Prod.fst = tbl.map Prod.fst := by
  unfold setStatus
  cases h : alookup tbl a with
  | none => rfl
  | some info => exact keys_aset_of_mem _ _ _ (by simp [h])

theorem alookup_setStatus_self (tbl : Table) (a : String) (s : ChunkServerStatus)
    (info : ServerInfo) (h : alookup tbl a = some info) :
    alookup (setStatus tbl a s) a = some { info with status := s } := by
  unfold setStatus
  rw [h]
  exact alookup_aset_self _ _ _

theorem alookup_setStatus_ne (tbl : Table) (a : String) (s : ChunkServerStatus)
    (b : String) (h : b ≠ a) :
    alookup (setStatus tbl a s) b = alookup tbl b := by
  unfold setStatus
  cases h2 : alookup tbl a with
  | none => rfl
  | some info => exact alookup_aset_ne _ _ _ _ h

theorem migrateStep_keys (hashFn : String → Nat) (ring : Ring) (na : String)
    (tbl : Table) (i : Nat) :
    (migrateStep hashFn ring na tbl i).map Prod.fst = tbl.map Prod.fst := by
  unfold migrateStep
  dsimp only
  cases hfp : find_predecessor ring (hashFn (vnodeKey na i)) with
  | none => rfl
  | some pred =>
    rw [keys_setChunks, keys_setChunks]

theorem migrateStep_proj (hashFn : String → Nat) (ring : Ring) (na : String)
    (tbl : Table) (i : Nat) (b : String) :
    (alookup (migrateStep hashFn ring na tbl i) b).map (fun i => (i.status, i.last_update)) =
      (alookup tbl b).map (fun i => (i.status, i.last_update)) := by
  unfold migrateStep
  dsimp only
  cases hfp : find_predecessor ring (hashFn (vnodeKey na i)) with
  | none => rfl
  | some pred =>
    rw [alookup_setChunks_proj, alookup_setChunks_proj]

theorem migrateData_keys (ch : ConsistentHash) (tbl : Table) (na : String) :
    (migrateData ch tbl na).map Prod.fst = tbl.map Prod.fst := by
  unfold migrateData
  generalize List.range ch.virtual_nodes = is
  induction is generalizing tbl with
  | nil => rfl
  | cons i rest ih =>
    rw [List.foldl_cons, ih, migrateStep_keys]

theorem migrateData_proj (ch : ConsistentHash) (tbl : Table) (na : String)
    (b : String) :
    (alookup (migrateData ch tbl na) b).map (fun i => (i.status, i.last_update)) =
      (alookup tbl b).map (fun i => (i.status, i.last_update)) := by
  unfold migrateData
  generalize List.range ch.virtual_nodes = is
  induction is generalizing tbl with
  | nil => rfl
  | cons i rest ih =>
    rw [List.foldl_cons, ih, migrateStep_proj]

theorem activate_ring (st : CoordState) (addr : String) :
    (Coordinator.activate_chunk_server st addr).consistent_hash.ring =
      (vnodeHashes st.consistent_hash.hashFn st.consistent_hash.virtual_nodes addr).foldl
        (fun r k => ringInsert r k addr) st.consistent_hash.ring := by
  simp only [Coordinator.activate_chunk_server, ConsistentHash.add_node]
  rw [vnodeHashes, List.foldl_map]

theorem activate_tbl (st : CoordState) (addr : String) :
    (Coordinator.activate_chunk_server st addr).chunk_servers =
      migrateData st.consistent_hash st.chunk_servers addr := rfl

theorem deactivate_ring (st : CoordState) (addr : String) :
    (Coordinator.deactivate_chunk_server st addr).consistent_hash.ring =
      (vnodeHashes st.consistent_hash.hashFn st.consistent_hash.virtual_nodes addr).foldl
        ringErase st.consistent_hash.ring := by
  simp only [Coordinator.deactivate_chunk_server, ConsistentHash.remove_node]
  rw [vnodeHashes, List.foldl_map]

/-! ### HashOk consequences -/

theorem mem_vnodeHashes {f : String → Nat} {V : Nat} {a : String} {h : Nat} :
    h ∈ vnodeHashes f V a ↔ ∃ i ∈ List.range V, h = f (vnodeKey a i) := by
  unfold vnodeHashes
  constructor
  · intro hm
    rcases List.mem_map.mp hm with ⟨i, hi, rfl⟩
    exact ⟨i, hi, rfl⟩
  · rintro ⟨i, hi, rfl⟩
    exact List.mem_map.mpr ⟨i, hi, rfl⟩

theorem hashok_vnode_disjoint {f : String → Nat} {V : Nat} {A : List String}
    (hok : HashOk f V A) {a b : String} (ha : a ∈ A) (hb : b ∈ A)
    (hne : a ≠ b) {h : Nat} (hma : h ∈ vnodeHashes f V a) :
    h ∉ vnodeHashes f V b := by
  intro hmb
  rcases mem_vnodeHashes.mp hma with ⟨i, hi, rfl⟩
  rcases mem_vnodeHashes.mp hmb with ⟨j, hj, heq⟩
  exact hne (hok a ha b hb i hi j hj heq).1

theorem hashok_vnode_nodup {f : String → Nat} {V : Nat} {A : List String}
    (hok : HashOk f V A) {a : String} (ha : a ∈ A) :
    (vnodeHashes f V a).Nodup := by
  unfold vnodeHashes
  refine List.Nodup.map_on ?_ (List.nodup_range V)
  intro i hi j hj heq
  exact (hok a ha a ha i hi j hj heq).2

theorem statusHS_some {info : ServerInfo} :
    statusHS (some info) ↔
      (info.status = ChunkServerStatus.HEALTHY ∨
        info.status = ChunkServerStatus.SUSPECT) := Iff.rfl

/-! ### Invariant preservation of the sweep branches -/

/-- Rewriting the status of a HEALTHY/SUSPECT server to HEALTHY or SUSPECT
(the non-structural sweep branches) preserves the invariant. -/
theorem setStatus_HS_inv (st : CoordState) (addr : String) (info : ServerInfo)
    (s : ChunkServerStatus) (hInv : Inv st)
    (hlook : alookup st.chunk_servers addr = some info)
    (hold : info.status = ChunkServerStatus.HEALTHY ∨
      info.status = ChunkServerStatus.SUSPECT)
    (hs : s = ChunkServerStatus.HEALTHY ∨ s = ChunkServerStatus.SUSPECT) :
    Inv { st with chunk_servers := setStatus st.chunk_servers addr s } := by
  obtain ⟨hnd, hsort, hrt, htr⟩ := hInv
  refine ⟨?_, hsort, ?_, ?_⟩
  · rw [keys_setStatus]
    exact hnd
  · intro p hp
    rcases hrt p hp with ⟨hHS, hv⟩
    refine ⟨?_, hv⟩
    by_cases hb : p.2 = addr
    · rw [hb, alookup_setStatus_self _ _ _ _ hlook]
      rw [statusHS_some]
      exact hs
    · rw [alookup_setStatus_ne _ _ _ _ hb]
      exact hHS
  · intro q hq hqs h hv
    by_cases hb : q.1 = addr
    · have := htr (addr, info) (mem_of_alookup_eq_some _ _ _ hlook) hold h
        (by rw [← hb]; exact hv)
      rw [hb]
      exact this
    · have h1 : alookup (setStatus st.chunk_servers addr s) q.1 = some q.2 := by
        apply alookup_of_mem_nodup _ _ _ hq
        rw [keys_setStatus]
        exact hnd
      rw [alookup_setStatus_ne _ _ _ _ hb] at h1
      exact htr (q.1, q.2) (mem_of_alookup_eq_some _ _ _ h1) hqs h hv

theorem proj_lookup_transfer {tbl1 tbl2 : Table} {b : String}
    (hproj : (alookup tbl1 b).map (fun i => (i.status, i.last_update)) =
      (alookup tbl2 b).map (fun i => (i.status, i.last_update)))
    {v : ServerInfo} (h : alookup tbl1 b = some v) :
    ∃ w, alookup tbl2 b = some w ∧ w.status = v.status ∧
      w.last_update = v.last_update := by
  rw [h] at hproj
  cases h2 : alookup tbl2 b with
  | none =>
    rw [h2] at hproj
    simp at hproj
  | some w =>
    rw [h2] at hproj
    simp at hproj
    exact ⟨w, rfl, hproj.1.symm, hproj.2.symm⟩

/-- The sweep's activation branch (INITIAL/FAILED server with a fresh
heartbeat): add the server's virtual nodes to the ring, run the migration
sweep, set the record HEALTHY — the invariant is preserved. -/
theorem activate_sweep_inv (st : CoordState) (addr : String) (info : ServerInfo)
    (A : List String) (hInv : Inv st) (hok : chHashOk st A) (hsub : stAddrs st ⊆ A)
    (hlook : alookup st.chunk_servers addr = some info) :
    Inv { Coordinator.activate_chunk_server st addr with
      chunk_servers := setStatus (Coordinator.activate_chunk_server st addr).chunk_servers addr ChunkServerStatus.HEALTHY } := by
  obtain ⟨hnd, hsort, hrt, htr⟩ := hInv
  have haddrA : addr ∈ A := hsub (List.mem_map.mpr
    ⟨(addr, info), mem_of_alookup_eq_some _ _ _ hlook, rfl⟩)
  have hring := activate_ring st addr
  obtain ⟨info1, hmig, hst1, hlu1⟩ := proj_lookup_transfer
    (migrateData_proj st.consistent_hash st.chunk_servers addr addr).symm hlook
  refine ⟨?_, ?_, ?_, ?_⟩
  · show ((setStatus (migrateData st.consistent_hash st.chunk_servers addr) addr
      ChunkServerStatus.HEALTHY).map Prod.fst).Nodup
    rw [keys_setStatus, migrateData_keys]
    exact hnd
  · show List.Pairwise (fun p q : Nat × String => p.1 < q.1)
      ((Coordinator.activate_chunk_server st addr).consistent_hash.ring)
    rw [hring]
    exact pairwise_foldl_ringInsert addr _ _ hsort
  · show ∀ p ∈ (Coordinator.activate_chunk_server st addr).consistent_hash.ring,
      statusHS (alookup (setStatus (migrateData st.consistent_hash st.chunk_servers addr)
        addr ChunkServerStatus.HEALTHY) p.2) ∧
      p.1 ∈ vnodeHashes st.consistent_hash.hashFn st.consistent_hash.virtual_nodes p.2
    intro p hp
    have hp2 : p ∈ (vnodeHashes st.consistent_hash.hashFn
        st.consistent_hash.virtual_nodes addr).foldl
        (fun r k => ringInsert r k addr) st.consistent_hash.ring := by
      rw [← hring]
      exact hp
    rcases (mem_foldl_ringInsert addr p _ _ hsort).mp hp2 with ⟨ha2, hin⟩ | ⟨hold2, hnotin⟩
    · constructor
      · rw [ha2, alookup_setStatus_self _ _ _ _ hmig, statusHS_some]
        exact Or.inl rfl
      · rw [ha2]
        exact hin
    · constructor
      · by_cases hb : p.2 = addr
        · rw [hb, alookup_setStatus_self _ _ _ _ hmig, statusHS_some]
          exact Or.inl rfl
        · rw [alookup_setStatus_ne _ _ _ _ hb]
          exact (statusHS_congr (proj_status
            (migrateData_proj st.consistent_hash st.chunk_servers addr p.2))).mpr
            (hrt p hold2).1
      · exact (hrt p hold2).2
  · show ∀ q ∈ setStatus (migrateData st.consistent_hash st.chunk_servers addr)
        addr ChunkServerStatus.HEALTHY,
      (q.2.status = ChunkServerStatus.HEALTHY ∨ q.2.status = ChunkServerStatus.SUSPECT) →
      ∀ h ∈ vnodeHashes st.consistent_hash.hashFn st.consistent_hash.virtual_nodes q.1,
        (h, q.1) ∈ (Coordinator.activate_chunk_server st addr).consistent_hash.ring
    intro q hq hqs h hv
    have hndS : ((setStatus (migrateData st.consistent_hash st.chunk_servers addr)
        addr ChunkServerStatus.HEALTHY).map Prod.fst).Nodup := by
      rw [keys_setStatus, migrateData_keys]
      exact hnd
    rw [hring]
    apply (mem_foldl_ringInsert addr (h, q.1) _ _ hsort).mpr
    by_cases hb : q.1 = addr
    · refine Or.inl ⟨hb, ?_⟩
      rw [← hb]
      exact hv
    · have hlq : alookup (setStatus (migrateData st.consistent_hash st.chunk_servers addr)
          addr ChunkServerStatus.HEALTHY) q.1 = some q.2 :=
        alookup_of_mem_nodup _ _ _ hq hndS
      rw [alookup_setStatus_ne _ _ _ _ hb] at hlq
      obtain ⟨w, hw, hws, hwl⟩ := proj_lookup_transfer
        (migrateData_proj st.consistent_hash st.chunk_servers addr q.1) hlq
      have hqA : q.1 ∈ A := hsub (List.mem_map.mpr
        ⟨(q.1, w), mem_of_alookup_eq_some _ _ _ hw, rfl⟩)
      refine Or.inr ⟨?_, ?_⟩
      · exact htr (q.1, w) (mem_of_alookup_eq_some _ _ _ hw)
          (by rw [hws]; exact hqs) h hv
      · exact hashok_vnode_disjoint hok hqA haddrA hb hv

/-- The sweep's failure branch (SUSPECT server timing out again): set the
record FAILED and erase its virtual nodes from the ring — the invariant is
preserved. -/
theorem deactivate_sweep_inv (st : CoordState) (addr : String) (info : ServerInfo)
    (A : List String) (hInv : Inv st) (hok : chHashOk st A) (hsub : stAddrs st ⊆ A)
    (hlook : alookup st.chunk_servers addr = some info) :
    Inv (Coordinator.deactivate_chunk_server { st with
      chunk_servers := setStatus st.chunk_servers addr ChunkServerStatus.FAILED } addr) := by
  obtain ⟨hnd, hsort, hrt, htr⟩ := hInv
  have haddrA : addr ∈ A := hsub (List.mem_map.mpr
    ⟨(addr, info), mem_of_alookup_eq_some _ _ _ hlook, rfl⟩)
  have hring := deactivate_ring { st with
    chunk_servers := setStatus st.chunk_servers addr ChunkServerStatus.FAILED } addr
  have hndS : ((setStatus st.chunk_servers addr ChunkServerStatus.FAILED).map
      Prod.fst).Nodup := by
    rw [keys_setStatus]
    exact hnd
  refine ⟨?_, ?_, ?_, ?_⟩
  · exact hndS
  · show List.Pairwise (fun p q : Nat × String => p.1 < q.1)
      ((Coordinator.deactivate_chunk_server { st with
        chunk_servers := setStatus st.chunk_servers addr ChunkServerStatus.FAILED }
        addr).consistent_hash.ring)
    rw [hring]
    exact pairwise_foldl_ringErase _ _ hsort
  · show ∀ p ∈ (Coordinator.deactivate_chunk_server { st with
        chunk_servers := setStatus st.chunk_servers addr ChunkServerStatus.FAILED }
        addr).consistent_hash.ring,
      statusHS (alookup (setStatus st.chunk_servers addr ChunkServerStatus.FAILED) p.2) ∧
      p.1 ∈ vnodeHashes st.consistent_hash.hashFn st.consistent_hash.virtual_nodes p.2
    intro p hp
    rw [hring] at hp
    have hp2 : p ∈ (vnodeHashes st.consistent_hash.hashFn
        st.consistent_hash.virtual_nodes addr).foldl ringErase
        st.consistent_hash.ring := hp
    rcases (mem_foldl_ringErase p _ _ hsort).mp hp2 with ⟨hin, hnot⟩
    have hb : p.2 ≠ addr := by
      intro hc
      apply hnot
      have h2 := (hrt p hin).2
      rw [hc] at h2
      exact h2
    refine ⟨?_, (hrt p hin).2⟩
    rw [alookup_setStatus_ne _ _ _ _ hb]
    exact (hrt p hin).1
  · show ∀ q ∈ setStatus st.chunk_servers addr ChunkServerStatus.FAILED,
      (q.2.status = ChunkServerStatus.HEALTHY ∨ q.2.status = ChunkServerStatus.SUSPECT) →
      ∀ h ∈ vnodeHashes st.consistent_hash.hashFn st.consistent_hash.virtual_nodes q.1,
        (h, q.1) ∈ (Coordinator.deactivate_chunk_server { st with
          chunk_servers := setStatus st.chunk_servers addr ChunkServerStatus.FAILED }
          addr).consistent_hash.ring
    intro q hq hqs h hv
    rw [hring]
    apply (mem_foldl_ringErase (h, q.1) _ _ hsort).mpr
    have hlq : alookup (setStatus st.chunk_servers addr ChunkServerStatus.FAILED) q.1 =
        some q.2 := alookup_of_mem_nodup _ _ _ hq hndS
    have hb : q.1 ≠ addr := by
      intro hc
      rw [hc] at hlq
      have h2 := Option.some.inj (hlq.symm.trans
        (alookup_setStatus_self st.chunk_servers addr ChunkServerStatus.FAILED info hlook))
      rw [h2] at hqs
      rcases hqs with hc2 | hc2 <;> simp at hc2
    rw [alookup_setStatus_ne _ _ _ _ hb] at hlq
    have hqA : q.1 ∈ A := hsub (List.mem_map.mpr
      ⟨(q.1, q.2), mem_of_alookup_eq_some _ _ _ hlq, rfl⟩)
    exact ⟨htr (q.1, q.2) (mem_of_alookup_eq_some _ _ _ hlq) hqs h hv,
      hashok_vnode_disjoint hok hqA haddrA hb hv⟩

/-- One sweep step for one address: the invariant is preserved, the key set,
digest, V and interval are unchanged, no other server's status changes,
no server's heartbeat clock changes, and the stepped server's status becomes
`sweepStatus` of its record. -/
theorem sweepServer_effect (now : Nat) (st : CoordState) (addr : String)
    (A : List String) (hInv : Inv st) (hok : chHashOk st A)
    (hsub : stAddrs st ⊆ A) :
    Inv (sweepServer now st addr) ∧
    stAddrs (sweepServer now st addr) = stAddrs st ∧
    (sweepServer now st addr).consistent_hash.hashFn = st.consistent_hash.hashFn ∧
    (sweepServer now st addr).consistent_hash.virtual_nodes =
      st.consistent_hash.virtual_nodes ∧
    (sweepServer now st addr).heartbeat_check_interval =
      st.heartbeat_check_interval ∧
    (∀ b, b ≠ addr →
      (alookup (sweepServer now st addr).chunk_servers b).map ServerInfo.status =
        (alookup st.chunk_servers b).map ServerInfo.status) ∧
    (∀ b, (alookup (sweepServer now st addr).chunk_servers b).map ServerInfo.last_update =
        (alookup st.chunk_servers b).map ServerInfo.last_update) ∧
    (alookup (sweepServer now st addr).chunk_servers addr).map ServerInfo.status =
      (alookup st.chunk_servers addr).map
        (sweepStatus st.heartbeat_check_interval now) := by
  cases hlook : alookup st.chunk_servers addr with
  | none =>
    have hw : sweepServer now st addr = st := by
      simp [sweepServer, hlook]
    rw [hw]
    exact ⟨hInv, rfl, rfl, rfl, rfl, fun b _ => rfl, fun b => rfl, by rw [hlook]; rfl⟩
  | some info =>
    by_cases hfresh : now - info.last_update ≤ st.heartbeat_check_interval
    · by_cases hact : info.status = ChunkServerStatus.FAILED ∨
          info.status = ChunkServerStatus.INITIAL
      · have hw : sweepServer now st addr =
            { Coordinator.activate_chunk_server st addr with
              chunk_servers := setStatus (Coordinator.activate_chunk_server st addr).chunk_servers addr ChunkServerStatus.HEALTHY } := by
          simp [sweepServer, hlook, hfresh, hact]
        rw [hw]
        obtain ⟨info1, hmig, hst1, hlu1⟩ := proj_lookup_transfer
          (migrateData_proj st.consistent_hash st.chunk_servers addr addr).symm hlook
        refine ⟨activate_sweep_inv st addr info A hInv hok hsub hlook, ?_, rfl, rfl,
          rfl, ?_, ?_, ?_⟩
        · show (setStatus (migrateData st.consistent_hash st.chunk_servers addr)
            addr ChunkServerStatus.HEALTHY).map Prod.fst = st.chunk_servers.map Prod.fst
          rw [keys_setStatus, migrateData_keys]
        · intro b hb
          show (alookup (setStatus (migrateData st.consistent_hash st.chunk_servers addr)
            addr ChunkServerStatus.HEALTHY) b).map ServerInfo.status =
              (alookup st.chunk_servers b).map ServerInfo.status
          rw [alookup_setStatus_ne _ _ _ _ hb]
          exact proj_status (migrateData_proj st.consistent_hash st.chunk_servers addr b)
        · intro b
          show (alookup (setStatus (migrateData st.consistent_hash st.chunk_servers addr)
            addr ChunkServerStatus.HEALTHY) b).map ServerInfo.last_update =
              (alookup st.chunk_servers b).map ServerInfo.last_update
          by_cases hb : b = addr
          · subst hb
            rw [alookup_setStatus_self _ _ _ _ hmig, hlook]
            simp [hlu1]
          · rw [alookup_setStatus_ne _ _ _ _ hb]
            exact proj_last_update
              (migrateData_proj st.consistent_hash st.chunk_servers addr b)
        · show (alookup (setStatus (migrateData st.consistent_hash st.chunk_servers addr)
            addr ChunkServerStatus.HEALTHY) addr).map ServerInfo.status =
              (some info).map (sweepStatus st.heartbeat_check_interval now)
          rw [alookup_setStatus_self _ _ _ _ hmig]
          simp [sweepStatus, hfresh]
      · have hold : info.status = ChunkServerStatus.HEALTHY ∨
            info.status = ChunkServerStatus.SUSPECT := by
          cases h4 : info.status
          · exact absurd (Or.inr h4) hact
          · exact Or.inl rfl
          · exact Or.inr rfl
          · exact absurd (Or.inl h4) hact
        have hw : sweepServer now st addr = { st with
            chunk_servers := setStatus st.chunk_servers addr ChunkServerStatus.HEALTHY } := by
          simp [sweepServer, hlook, hfresh, hact]
        rw [hw]
        refine ⟨setStatus_HS_inv st addr info ChunkServerStatus.HEALTHY hInv hlook hold
          (Or.inl rfl), ?_, rfl, rfl, rfl, ?_, ?_, ?_⟩
        · show (setStatus st.chunk_servers addr ChunkServerStatus.HEALTHY).map Prod.fst =
            st.chunk_servers.map Prod.fst
          rw [keys_setStatus]
        · intro b hb
          show (alookup (setStatus st.chunk_servers addr ChunkServerStatus.HEALTHY) b).map
            ServerInfo.status = (alookup st.chunk_servers b).map ServerInfo.status
          rw [alookup_setStatus_ne _ _ _ _ hb]
        · intro b
          show (alookup (setStatus st.chunk_servers addr ChunkServerStatus.HEALTHY) b).map
            ServerInfo.last_update = (alookup st.chunk_servers b).map ServerInfo.last_update
          by_cases hb : b = addr
          · subst hb
            rw [alookup_setStatus_self _ _ _ _ hlook, hlook]
            rfl
          · rw [alookup_setStatus_ne _ _ _ _ hb]
        · show (alookup (setStatus st.chunk_servers addr ChunkServerStatus.HEALTHY) addr).map
            ServerInfo.status = (some info).map (sweepStatus st.heartbeat_check_interval now)
          rw [alookup_setStatus_self _ _ _ _ hlook]
          simp [sweepStatus, hfresh]
    · by_cases hH : info.status = ChunkServerStatus.HEALTHY
      · have hw : sweepServer now st addr = { st with
            chunk_servers := setStatus st.chunk_servers addr ChunkServerStatus.SUSPECT } := by
          simp [sweepServer, hlook, hfresh, hH]
        rw [hw]
        refine ⟨setStatus_HS_inv st addr info ChunkServerStatus.SUSPECT hInv hlook
          (Or.inl hH) (Or.inr rfl), ?_, rfl, rfl, rfl, ?_, ?_, ?_⟩
        · show (setStatus st.chunk_servers addr ChunkServerStatus.SUSPECT).map Prod.fst =
            st.chunk_servers.map Prod.fst
          rw [keys_setStatus]
        · intro b hb
          show (alookup (setStatus st.chunk_servers addr ChunkServerStatus.SUSPECT) b).map
            ServerInfo.status = (alookup st.chunk_servers b).map ServerInfo.status
          rw [alookup_setStatus_ne _ _ _ _ hb]
        · intro b
          show (alookup (setStatus st.chunk_servers addr ChunkServerStatus.SUSPECT) b).map
            ServerInfo.last_update = (alookup st.chunk_servers b).map ServerInfo.last_update
          by_cases hb : b = addr
          · subst hb
            rw [alookup_setStatus_self _ _ _ _ hlook, hlook]
            rfl
          · rw [alookup_setStatus_ne _ _ _ _ hb]
        · show (alookup (setStatus st.chunk_servers addr ChunkServerStatus.SUSPECT) addr).map
            ServerInfo.status = (some info).map (sweepStatus st.heartbeat_check_interval now)
          rw [alookup_setStatus_self _ _ _ _ hlook]
          simp [sweepStatus, hfresh, hH]
      · by_cases hS : info.status = ChunkServerStatus.SUSPECT
        · have hw : sweepServer now st addr =
              Coordinator.deactivate_chunk_server { st with
                chunk_servers := setStatus st.chunk_servers addr ChunkServerStatus.FAILED } addr := by
            simp [sweepServer, hlook, hfresh, hH, hS]
          rw [hw]
          refine ⟨deactivate_sweep_inv st addr info A hInv hok hsub hlook, ?_, rfl, rfl,
            rfl, ?_, ?_, ?_⟩
          · show (setStatus st.chunk_servers addr ChunkServerStatus.FAILED).map Prod.fst =
              st.chunk_servers.map Prod.fst
            rw [keys_setStatus]
          · intro b hb
            show (alookup (setStatus st.chunk_servers addr ChunkServerStatus.FAILED) b).map
              ServerInfo.status = (alookup st.chunk_servers b).map ServerInfo.status
            rw [alookup_setStatus_ne _ _ _ _ hb]
          · intro b
            show (alookup (setStatus st.chunk_servers addr ChunkServerStatus.FAILED) b).map
              ServerInfo.last_update = (alookup st.chunk_servers b).map ServerInfo.last_update
            by_cases hb : b = addr
            · subst hb
              rw [alookup_setStatus_self _ _ _ _ hlook, hlook]
              rfl
            · rw [alookup_setStatus_ne _ _ _ _ hb]
          · show (alookup (setStatus st.chunk_servers addr ChunkServerStatus.FAILED) addr).map
              ServerInfo.status = (some info).map (sweepStatus st.heartbeat_check_interval now)
            rw [alookup_setStatus_self _ _ _ _ hlook]
            simp [sweepStatus, hfresh, hS]
        · have hw : sweepServer now st addr = st := by
            simp [sweepServer, hlook, hfresh, hH, hS]
          rw [hw]
          refine ⟨hInv, rfl, rfl, rfl, rfl, fun b _ => rfl, fun b => rfl, ?_⟩
          rw [hlook]
          cases h4 : info.status
          · simp [sweepStatus, hfresh, h4]
          · exact absurd h4 hH
          · exact absurd h4 hS
          · simp [sweepStatus, hfresh, h4]

theorem sweepStatus_congr {o1 o2 : Option ServerInfo} (T now : Nat)
    (hs : o1.map ServerInfo.status = o2.map ServerInfo.status)
    (hl : o1.map ServerInfo.last_update = o2.map ServerInfo.last_update) :
    o1.map (sweepStatus T now) = o2.map (sweepStatus T now) := by
  cases o1 with
  | none =>
    cases o2 with
    | none => rfl
    | some b => simp at hs
  | some a =>
    cases o2 with
    | none => simp at hs
    | some b =>
      simp at hs hl ⊢
      unfold sweepStatus
      rw [hs, hl]

/-- Folding the sweep step over a duplicate-free address list: the invariant
is carried, and every address in the list has its status stepped once by
`sweepStatus` (relative to a reference state `st0` whose status/clock fields
agree with the running state on the unprocessed addresses). -/
theorem fold_sweep_effect (now : Nat) (A : List String) (st0 : CoordState) :
    ∀ (ks : List String) (st : CoordState),
      Inv st → chHashOk st A → stAddrs st ⊆ A →
      st.consistent_hash.hashFn = st0.consistent_hash.hashFn →
      st.consistent_hash.virtual_nodes = st0.consistent_hash.virtual_nodes →
      st.heartbeat_check_interval = st0.heartbeat_check_interval →
      stAddrs st = stAddrs st0 →
      ks.Nodup →
      (∀ a ∈ ks,
        (alookup st.chunk_servers a).map ServerInfo.status =
          (alookup st0.chunk_servers a).map ServerInfo.status ∧
        (alookup st.chunk_servers a).map ServerInfo.last_update =
          (alookup st0.chunk_servers a).map ServerInfo.last_update) →
      Inv (ks.foldl (sweepServer now) st) ∧
      stAddrs (ks.foldl (sweepServer now) st) = stAddrs st0 ∧
      (ks.foldl (sweepServer now) st).consistent_hash.hashFn =
        st0.consistent_hash.hashFn ∧
      (ks.foldl (sweepServer now) st).consistent_hash.virtual_nodes =
        st0.consistent_hash.virtual_nodes ∧
      (ks.foldl (sweepServer now) st).heartbeat_check_interval =
        st0.heartbeat_check_interval ∧
      (∀ a ∈ ks,
        (alookup (ks.foldl (sweepServer now) st).chunk_servers a).map ServerInfo.status =
          (alookup st0.chunk_servers a).map
            (sweepStatus st0.heartbeat_check_interval now)) ∧
      (∀ a, a ∉ ks →
        (alookup (ks.foldl (sweepServer now) st).chunk_servers a).map ServerInfo.status =
          (alookup st.chunk_servers a).map ServerInfo.status) ∧
      (∀ a, (alookup (ks.foldl (sweepServer now) st).chunk_servers a).map
          ServerInfo.last_update =
        (alookup st.chunk_servers a).map ServerInfo.last_update) := by
  intro ks
  induction ks with
  | nil =>
    intro st hInv hok hsub h1 h2 h3 h4 _ _
    exact ⟨hInv, h4, h1, h2, h3, by simp, fun a _ => rfl, fun a => rfl⟩
  | cons k rest ih =>
    intro st hInv hok hsub h1 h2 h3 h4 hnd hpre
    rcases List.nodup_cons.mp hnd with ⟨hk, hnd2⟩
    obtain ⟨e1, e2, e3, e4, e5, e6, e7, e8⟩ :=
      sweepServer_effect now st k A hInv hok hsub
    have hok1 : chHashOk (sweepServer now st k) A := by
      unfold chHashOk at hok ⊢
      rw [e3, e4]
      exact hok
    have hres := ih (sweepServer now st k) e1 hok1 (by rw [e2]; exact hsub)
      (by rw [e3]; exact h1) (by rw [e4]; exact h2) (by rw [e5]; exact h3)
      (by rw [e2]; exact h4) hnd2
      (by
        intro a ha
        have hane : a ≠ k := fun hc => hk (hc ▸ ha)
        refine ⟨?_, ?_⟩
        · rw [e6 a hane]
          exact (hpre a (List.mem_cons_of_mem _ ha)).1
        · rw [e7 a]
          exact (hpre a (List.mem_cons_of_mem _ ha)).2)
    rw [List.foldl_cons]
    obtain ⟨r1, r2, r3, r4, r5, r6, r7, r8⟩ := hres
    refine ⟨r1, r2, r3, r4, r5, ?_, ?_, ?_⟩
    · intro a ha
      rcases List.mem_cons.mp ha with ha2 | ha2
      · subst ha2
        rw [r7 a hk, e8]
        have := sweepStatus_congr st.heartbeat_check_interval now
          (hpre a (List.mem_cons_self _ _)).1 (hpre a (List.mem_cons_self _ _)).2
        rw [this, h3]
      · exact r6 a ha2
    · intro a ha
      have hane : a ≠ k := fun hc => ha (hc ▸ List.mem_cons_self _ _)
      have hanr : a ∉ rest := fun hc => ha (List.mem_cons_of_mem _ hc)
      rw [r7 a hanr, e6 a hane]
    · intro a
      rw [r8 a, e7 a]

/-- One full heartbeat sweep: the invariant is carried, structure and clocks
are preserved, and every record's status is stepped once by `sweepStatus`. -/
theorem heartbeat_check_effect (now : Nat) (st : CoordState) (A : List String)
    (hInv : Inv st) (hok : chHashOk st A) (hsub : stAddrs st ⊆ A) :
    Inv (Coordinator.heartbeat_check now st) ∧
    stAddrs (Coordinator.heartbeat_check now st) = stAddrs st ∧
    (Coordinator.heartbeat_check now st).consistent_hash.hashFn =
      st.consistent_hash.hashFn ∧
    (Coordinator.heartbeat_check now st).consistent_hash.virtual_nodes =
      st.consistent_hash.virtual_nodes ∧
    (Coordinator.heartbeat_check now st).heartbeat_check_interval =
      st.heartbeat_check_interval ∧
    (∀ a, (alookup (Coordinator.heartbeat_check now st).chunk_servers a).map
        ServerInfo.status =
      (alookup st.chunk_servers a).map
        (sweepStatus st.heartbeat_check_interval now)) ∧
    (∀ a, (alookup (Coordinator.heartbeat_check now st).chunk_servers a).map
        ServerInfo.last_update =
      (alookup st.chunk_servers a).map ServerInfo.last_update) := by
  obtain ⟨r1, r2, r3, r4, r5, r6, r7, r8⟩ := fold_sweep_effect now A st
    (st.chunk_servers.map Prod.fst) st hInv hok hsub rfl rfl rfl rfl hInv.1
    (fun a _ => ⟨rfl, rfl⟩)
  refine ⟨r1, r2, r3, r4, r5, ?_, r8⟩
  intro a
  show (alookup ((st.chunk_servers.map Prod.fst).foldl (sweepServer now) st).chunk_servers
      a).map ServerInfo.status =
    (alookup st.chunk_servers a).map (sweepStatus st.heartbeat_check_interval now)
  by_cases ha : a ∈ st.chunk_servers.map Prod.fst
  · exact r6 a ha
  · have hnone := alookup_eq_none_of_not_mem a st.chunk_servers ha
    rw [r7 a ha, hnone]
    rfl

theorem not_mem_of_alookup_none {β : Type} (l : List (String × β)) (k : String)
    (h : alookup l k = none) : k ∉ l.map Prod.fst := by
  intro hc
  rcases List.mem_map.mp hc with ⟨p, hp, hfst⟩
  have := alookup_isSome_of_mem p l hp
  rw [hfst, h] at this
  simp at this

theorem mem_of_mem_aerase {β : Type} (k : String) (p : String × β) :
    ∀ l : List (String × β), p ∈ aerase l k → p ∈ l := by
  intro l
  induction l with
  | nil => intro h; simp [aerase] at h
  | cons q rest ih =>
    intro h
    by_cases hq : q.1 = k
    · simp only [aerase, hq, if_true] at h
      exact List.mem_cons_of_mem _ h
    · simp only [aerase, hq, if_false] at h
      rcases List.mem_cons.mp h with h | h
      · exact h ▸ List.mem_cons_self _ _
      · exact List.mem_cons_of_mem _ (ih h)

theorem keys_map_value {β : Type} (f : String × β → β) (l : List (String × β)) :
    (l.map (fun p => (p.1, f p))).map Prod.fst = l.map Prod.fst := by
  induction l with
  | nil => rfl
  | cons p rest ih => simp [ih]

/-- `Inv` only depends on the membership table and the consistent hash. -/
theorem Inv_of_eq (st st' : CoordState)
    (h1 : st'.chunk_servers = st.chunk_servers)
    (h2 : st'.consistent_hash = st.consistent_hash) (hInv : Inv st) : Inv st' := by
  unfold Inv at hInv ⊢
  rw [h1, h2]
  exact hInv

/-- `Inv` is stable under rewriting table values as long as keys and statuses
are preserved and the consistent hash is untouched. -/
theorem Inv_table_status_preserved (st st' : CoordState)
    (hch : st'.consistent_hash = st.consistent_hash)
    (hkeys : st'.chunk_servers.map Prod.fst = st.chunk_servers.map Prod.fst)
    (hstat : ∀ b, (alookup st'.chunk_servers b).map ServerInfo.status =
      (alookup st.chunk_servers b).map ServerInfo.status)
    (hInv : Inv st) : Inv st' := by
  obtain ⟨hnd, hsort, hrt, htr⟩ := hInv
  refine ⟨by rw [hkeys]; exact hnd, by rw [hch]; exact hsort, ?_, ?_⟩
  · intro p hp
    rw [hch] at hp
    rcases hrt p hp with ⟨hHS, hv⟩
    rw [hch]
    exact ⟨(statusHS_congr (hstat p.2)).mpr hHS, hv⟩
  · intro q hq hqs h hv
    have hnd2 : (st'.chunk_servers.map Prod.fst).Nodup := by
      rw [hkeys]
      exact hnd
    have hlq : alookup st'.chunk_servers q.1 = some q.2 :=
      alookup_of_mem_nodup _ _ _ hq hnd2
    have := hstat q.1
    rw [hlq] at this
    cases hlq2 : alookup st.chunk_servers q.1 with
    | none =>
      rw [hlq2] at this
      simp at this
    | some w =>
      rw [hlq2] at this
      simp at this
      rw [hch] at hv ⊢
      exact htr (q.1, w) (mem_of_alookup_eq_some _ _ _ hlq2)
        (by rw [← this]; exact hqs) h hv

/-- Every coordinator event preserves the invariant, keeps the table's
addresses inside `A` (given that a register address is in `A`), and leaves
the digest, V and interval unchanged. -/
theorem runOp_inv (st : CoordState) (op : Op) (A : List String)
    (hInv : Inv st) (hok : chHashOk st A) (hsub : stAddrs st ⊆ A)
    (hopA : ∀ a, op = Op.register a → a ∈ A) :
    Inv (runOp st op) ∧ stAddrs (runOp st op) ⊆ A ∧
    (runOp st op).consistent_hash.hashFn = st.consistent_hash.hashFn ∧
    (runOp st op).consistent_hash.virtual_nodes = st.consistent_hash.virtual_nodes ∧
    (runOp st op).heartbeat_check_interval = st.heartbeat_check_interval := by
  cases op with
  | register addr =>
    by_cases hdup : (alookup st.chunk_servers addr).isSome
    · have hw : runOp st (Op.register addr) = st := by
        simp [runOp, Coordinator.register_chunk_server, hdup]
      rw [hw]
      exact ⟨hInv, hsub, rfl, rfl, rfl⟩
    · have hnone : alookup st.chunk_servers addr = none := by
        cases h : alookup st.chunk_servers addr
        · rfl
        · rw [h] at hdup; simp at hdup
      have hw : runOp st (Op.register addr) = { st with
          chunk_servers := st.chunk_servers ++ [(addr,
            { status := ChunkServerStatus.INITIAL, remains := 0,
              last_update := 0, chunks := [] })] } := by
        simp [runOp, Coordinator.register_chunk_server, hdup]
      rw [hw]
      obtain ⟨hnd, hsort, hrt, htr⟩ := hInv
      have hnotmem := not_mem_of_alookup_none _ _ hnone
      refine ⟨⟨?_, hsort, ?_, ?_⟩, ?_, rfl, rfl, rfl⟩
      · show ((st.chunk_servers ++ [(addr, _)]).map Prod.fst).Nodup
        rw [List.map_append]
        simp only [List.map_cons, List.map_nil]
        rw [← List.concat_eq_append]
        exact List.Nodup.concat hnotmem hnd
      · intro p hp
        rcases hrt p hp with ⟨hHS, hv⟩
        refine ⟨?_, hv⟩
        by_cases hb : p.2 = addr
        · rw [hb, hnone] at hHS
          exact absurd hHS (by simp [statusHS])
        · rw [alookup_append_ne _ _ _ _ hb]
          exact hHS
      · intro q hq hqs h hv
        rcases List.mem_append.mp hq with hq2 | hq2
        · exact htr q hq2 hqs h hv
        · simp at hq2
          rw [hq2] at hqs
          rcases hqs with hc | hc <;> simp at hc
      · intro b hb
        show b ∈ A
        unfold stAddrs at hb
        rw [List.map_append] at hb
        rcases List.mem_append.mp hb with hb | hb
        · exact hsub hb
        · simp at hb
          rw [hb]
          exact hopA addr rfl
  | unregister addr =>
    by_cases hin : (alookup st.chunk_servers addr).isSome
    · rcases Option.isSome_iff_exists.mp hin with ⟨info, hlook⟩
      have hw : runOp st (Op.unregister addr) =
          { Coordinator.deactivate_chunk_server st addr with
            chunk_servers := aerase st.chunk_servers addr } := by
        simp [runOp, Coordinator.unregister_chunk_server, hin,
          Coordinator.deactivate_chunk_server]
      rw [hw]
      obtain ⟨hnd, hsort, hrt, htr⟩ := hInv
      have haddrA : addr ∈ A := hsub (List.mem_map.mpr
        ⟨(addr, info), mem_of_alookup_eq_some _ _ _ hlook, rfl⟩)
      have hring := deactivate_ring st addr
      have hndE : ((aerase st.chunk_servers addr).map Prod.fst).Nodup :=
        (keys_aerase_sublist _ _).nodup hnd
      refine ⟨⟨hndE, ?_, ?_, ?_⟩, ?_, rfl, rfl, rfl⟩
      · show List.Pairwise (fun p q : Nat × String => p.1 < q.1)
          ((Coordinator.deactivate_chunk_server st addr).consistent_hash.ring)
        rw [hring]
        exact pairwise_foldl_ringErase _ _ hsort
      · show ∀ p ∈ (Coordinator.deactivate_chunk_server st addr).consistent_hash.ring,
          statusHS (alookup (aerase st.chunk_servers addr) p.2) ∧
          p.1 ∈ vnodeHashes st.consistent_hash.hashFn
            st.consistent_hash.virtual_nodes p.2
        intro p hp
        rw [hring] at hp
        rcases (mem_foldl_ringErase p _ _ hsort).mp hp with ⟨hin2, hnot⟩
        have hb : p.2 ≠ addr := by
          intro hc
          apply hnot
          have h2 := (hrt p hin2).2
          rw [hc] at h2
          exact h2
        rw [alookup_aerase_ne _ _ _ hb]
        exact hrt p hin2
      · show ∀ q ∈ aerase st.chunk_servers addr,
          (q.2.status = ChunkServerStatus.HEALTHY ∨
            q.2.status = ChunkServerStatus.SUSPECT) →
          ∀ h ∈ vnodeHashes st.consistent_hash.hashFn
              st.consistent_hash.virtual_nodes q.1,
            (h, q.1) ∈ (Coordinator.deactivate_chunk_server st addr).consistent_hash.ring
        intro q hq hqs h hv
        rw [hring]
        apply (mem_foldl_ringErase (h, q.1) _ _ hsort).mpr
        have hlq : alookup (aerase st.chunk_servers addr) q.1 = some q.2 :=
          alookup_of_mem_nodup _ _ _ hq hndE
        have hb : q.1 ≠ addr := by
          intro hc
          rw [hc, alookup_aerase_self _ _ hnd] at hlq
          simp at hlq
        rw [alookup_aerase_ne _ _ _ hb] at hlq
        have hqA : q.1 ∈ A := hsub (List.mem_map.mpr
          ⟨(q.1, q.2), mem_of_alookup_eq_some _ _ _ hlq, rfl⟩)
        exact ⟨htr (q.1, q.2) (mem_of_alookup_eq_some _ _ _ hlq) hqs h hv,
          hashok_vnode_disjoint hok hqA haddrA hb hv⟩
      · intro b hb
        unfold stAddrs at hb
        exact hsub ((keys_aerase_sublist _ _).mem hb)
    · have hw : runOp st (Op.unregister addr) = st := by
        simp [runOp, Coordinator.unregister_chunk_server, hin]
      rw [hw]
      exact ⟨hInv, hsub, rfl, rfl, rfl⟩
  | heartbeat addr remains now =>
    cases hlook : alookup st.chunk_servers addr with
    | none =>
      have hw : runOp st (Op.heartbeat addr remains now) = st := by
        simp [runOp, Coordinator.heartbeat, hlook]
      rw [hw]
      exact ⟨hInv, hsub, rfl, rfl, rfl⟩
    | some info =>
      have hw : runOp st (Op.heartbeat addr remains now) = { st with
          chunk_servers := aset st.chunk_servers addr
            ({ status := info.status, remains := remains,
               last_update := now, chunks := info.chunks }) } := by
        simp [runOp, Coordinator.heartbeat, hlook]
      rw [hw]
      have hkeys : (aset st.chunk_servers addr
          { status := info.status, remains := remains, last_update := now,
            chunks := info.chunks }).map Prod.fst =
          st.chunk_servers.map Prod.fst :=
        keys_aset_of_mem _ _ _ (by simp [hlook])
      refine ⟨Inv_table_status_preserved st _ rfl hkeys ?_ hInv, ?_, rfl, rfl, rfl⟩
      · intro b
        by_cases hb : b = addr
        · subst hb
          rw [alookup_aset_self, hlook]
          rfl
        · rw [alookup_aset_ne _ _ _ _ hb]
      · intro b hb
        unfold stAddrs at hb
        rw [hkeys] at hb
        exact hsub hb
  | writeFile a b n r =>
    refine ⟨Inv_of_eq st _ rfl rfl hInv, ?_, rfl, rfl, rfl⟩
    intro x hx
    exact hsub hx
  | deleteFile a b =>
    cases hfile : alookup st.files (a ++ "." ++ b) with
    | none =>
      have hw : runOp st (Op.deleteFile a b) = st := by
        simp [runOp, Coordinator.delete_file, hfile]
      rw [hw]
      exact ⟨hInv, hsub, rfl, rfl, rfl⟩
    | some file =>
      have hkeys := keys_map_value (fun p : String × ServerInfo =>
        { p.2 with chunks := p.2.chunks.filter (fun c => decide (c ∉ file.chunks)) })
        st.chunk_servers
      have hw : runOp st (Op.deleteFile a b) = { st with
          files := aerase st.files (a ++ "." ++ b),
          chunk_servers := st.chunk_servers.map (fun p => (p.1,
            { p.2 with chunks := p.2.chunks.filter (fun c => decide (c ∉ file.chunks)) })),
          chunk_locations := file.chunks.foldl aerase st.chunk_locations } := by
        simp [runOp, Coordinator.delete_file, hfile]
      rw [hw]
      refine ⟨Inv_table_status_preserved st _ rfl hkeys ?_ hInv, ?_, rfl, rfl, rfl⟩
      · intro b2
        have h1 := alookup_map_value (fun q : ServerInfo =>
          { q with chunks := q.chunks.filter (fun c => decide (c ∉ file.chunks)) })
          st.chunk_servers b2
        exact (congrArg (Option.map ServerInfo.status) h1).trans
          (by cases alookup st.chunk_servers b2 <;> rfl)
      · intro x hx
        have hx2 : x ∈ st.chunk_servers.map Prod.fst := by
          rw [← hkeys]
          exact hx
        exact hsub hx2
  | sweep now =>
    obtain ⟨r1, r2, r3, r4, r5, _, _⟩ :=
      heartbeat_check_effect now st A hInv hok hsub
    refine ⟨r1, ?_, r3, r4, r5⟩
    show stAddrs (Coordinator.heartbeat_check now st) ⊆ A
    rw [r2]
    exact hsub

/-- Every event sequence preserves the invariant from any state whose
addresses (and the sequence's register addresses) lie in `A`. -/
theorem runOps_inv (A : List String) :
    ∀ (ops : List Op) (st : CoordState),
      Inv st → chHashOk st A → stAddrs st ⊆ A → opAddrs ops ⊆ A →
      Inv (runOps ops st) ∧ stAddrs (runOps ops st) ⊆ A ∧
      (runOps ops st).consistent_hash.hashFn = st.consistent_hash.hashFn ∧
      (runOps ops st).consistent_hash.virtual_nodes =
        st.consistent_hash.virtual_nodes ∧
      (runOps ops st).heartbeat_check_interval = st.heartbeat_check_interval := by
  intro ops
  induction ops with
  | nil =>
    intro st h1 h2 h3 _
    exact ⟨h1, h3, rfl, rfl, rfl⟩
  | cons op rest ih =>
    intro st h1 h2 h3 h4
    obtain ⟨e1, e2, e3, e4, e5⟩ := runOp_inv st op A h1 h2 h3 (by
      intro a hop
      subst hop
      apply h4
      show a ∈ opAddrs (Op.register a :: rest)
      exact List.mem_cons_self _ _)
    have hok1 : chHashOk (runOp st op) A := by
      unfold chHashOk at h2 ⊢
      rw [e3, e4]
      exact h2
    have h4r : opAddrs rest ⊆ A := by
      intro a ha
      apply h4
      cases op with
      | register a0 => exact List.mem_cons_of_mem _ ha
      | unregister a0 => exact ha
      | heartbeat a0 r n => exact ha
      | writeFile a0 b0 n r => exact ha
      | deleteFile a0 b0 => exact ha
      | sweep n => exact ha
    obtain ⟨f1, f2, f3, f4, f5⟩ := ih (runOp st op) e1 hok1 e2 h4r
    have hfold : runOps (op :: rest) st = runOps rest (runOp st op) := rfl
    rw [hfold]
    exact ⟨f1, f2, f3.trans e3, f4.trans e4, f5.trans e5⟩

theorem init_inv (hashFn : String → Nat) (V T : Nat) :
    Inv (Coordinator.init hashFn V T) := by
  refine ⟨List.nodup_nil, List.Pairwise.nil, ?_, ?_⟩
  · intro p hp
    simp [Coordinator.init, ConsistentHash.init] at hp
  · intro q hq
    simp [Coordinator.init] at hq

/-- From the invariant: the addresses on the ring are exactly the HEALTHY
and SUSPECT servers, each with exactly V ring entries, while INITIAL and
FAILED servers have none. -/
theorem inv_ring_membership (st : CoordState) (A : List String)
    (hInv : Inv st) (hok : chHashOk st A) (hsub : stAddrs st ⊆ A)
    (hV : 1 ≤ st.consistent_hash.virtual_nodes) :
    (∀ a, (∃ k, (k, a) ∈ st.consistent_hash.ring) ↔
      statusHS (alookup st.chunk_servers a)) ∧
    (∀ a info, alookup st.chunk_servers a = some info →
      (st.consistent_hash.ring.filter (fun p => decide (p.2 = a))).length =
        (if info.status = ChunkServerStatus.HEALTHY ∨
            info.status = ChunkServerStatus.SUSPECT
          then st.consistent_hash.virtual_nodes else 0)) := by
  obtain ⟨hnd, hsort, hrt, htr⟩ := hInv
  constructor
  · intro a
    constructor
    · rintro ⟨k, hk⟩
      exact (hrt (k, a) hk).1
    · intro hs
      cases hl : alookup st.chunk_servers a with
      | none =>
        rw [hl] at hs
        exact absurd hs (by simp [statusHS])
      | some info =>
        rw [hl] at hs
        have hmem := mem_of_alookup_eq_some _ _ _ hl
        refine ⟨st.consistent_hash.hashFn (vnodeKey a 0), ?_⟩
        exact htr (a, info) hmem (statusHS_some.mp hs) _
          (mem_vnodeHashes.mpr ⟨0, by simp; omega, rfl⟩)
  · intro a info hl
    have haA : a ∈ A := hsub (List.mem_map.mpr
      ⟨(a, info), mem_of_alookup_eq_some _ _ _ hl, rfl⟩)
    by_cases hhs : info.status = ChunkServerStatus.HEALTHY ∨
        info.status = ChunkServerStatus.SUSPECT
    · rw [if_pos hhs]
      have hmem := mem_of_alookup_eq_some _ _ _ hl
      have hmemiff : ∀ k, k ∈ (st.consistent_hash.ring.filter
          (fun p => decide (p.2 = a))).map Prod.fst ↔
          k ∈ vnodeHashes st.consistent_hash.hashFn
            st.consistent_hash.virtual_nodes a := by
        intro k
        constructor
        · intro hk
          rcases List.mem_map.mp hk with ⟨p, hpF, hfst⟩
          rcases List.mem_filter.mp hpF with ⟨hpr, hpa⟩
          rw [decide_eq_true_iff] at hpa
          have := (hrt p hpr).2
          rw [hpa, hfst] at this
          exact this
        · intro hk
          have := htr (a, info) hmem hhs k hk
          exact List.mem_map.mpr ⟨(k, a), List.mem_filter.mpr ⟨this, by simp⟩, rfl⟩
      have hndF : ((st.consistent_hash.ring.filter
          (fun p => decide (p.2 = a))).map Prod.fst).Nodup :=
        ((List.filter_sublist _).map Prod.fst).nodup (ring_keys_nodup _ hsort)
      have hndV : (vnodeHashes st.consistent_hash.hashFn
          st.consistent_hash.virtual_nodes a).Nodup := hashok_vnode_nodup hok haA
      have hfin : ((st.consistent_hash.ring.filter
          (fun p => decide (p.2 = a))).map Prod.fst).toFinset =
          (vnodeHashes st.consistent_hash.hashFn
            st.consistent_hash.virtual_nodes a).toFinset := by
        ext k
        rw [List.mem_toFinset, List.mem_toFinset]
        exact hmemiff k
      have hlen : ((st.consistent_hash.ring.filter
          (fun p => decide (p.2 = a))).map Prod.fst).length =
          (vnodeHashes st.consistent_hash.hashFn
            st.consistent_hash.virtual_nodes a).length := by
        rw [← List.toFinset_card_of_nodup hndF, ← List.toFinset_card_of_nodup hndV,
          hfin]
      rw [← List.length_map _ Prod.fst]
      rw [hlen]
      unfold vnodeHashes
      simp
    · rw [if_neg hhs]
      rw [List.length_eq_zero, List.filter_eq_nil_iff]
      intro p hp
      rw [decide_eq_true_iff]
      intro hc
      have := (hrt p hp).1
      rw [hc, hl] at this
      exact hhs (statusHS_some.mp this)

/-! ### C2: ring/membership consistency -/

/-- C2 (counterexample to the claim as stated): after register, heartbeat at
100 and sweeps at 100 and 200 (interval 10), server `"a"` is SUSPECT — not
Healthy — yet still has its 2 virtual-node entries in the ring, so the ring
does not equal the set of Healthy servers and a non-Healthy server has more
than 0 entries. -/
theorem C2_ring_membership_counterexample :
    (alookup (runOps [Op.register "a", Op.heartbeat "a" 7 100, Op.sweep 100,
        Op.sweep 200] (Coordinator.init egHash 2 10)).chunk_servers "a").map
      ServerInfo.status = some ChunkServerStatus.SUSPECT ∧
    ((runOps [Op.register "a", Op.heartbeat "a" 7 100, Op.sweep 100,
        Op.sweep 200] (Coordinator.init egHash 2 10)).consistent_hash.ring.filter
      (fun p => decide (p.2 = "a"))).length = 2 := by
  decide

/-- C2 (amended): after any event sequence from the initial coordinator —
assuming the digest is collision-free on the registered addresses' virtual
keys and `V ≥ 1` — the set of physical servers on the ring equals the set of
servers whose status is HEALTHY **or SUSPECT**; HEALTHY and SUSPECT servers
have exactly V virtual-node entries, INITIAL and FAILED servers have 0 (a
SUSPECT server stays on the ring until a second missed sweep fails it). -/
theorem C2_ring_membership (hashFn : String → Nat) (V T : Nat) (hV : 1 ≤ V)
    (ops : List Op) (hok : HashOk hashFn V (opAddrs ops)) :
    (∀ a, (∃ k, (k, a) ∈ (runOps ops (Coordinator.init hashFn V T)).consistent_hash.ring) ↔
      statusHS (alookup (runOps ops (Coordinator.init hashFn V T)).chunk_servers a)) ∧
    (∀ a info,
      alookup (runOps ops (Coordinator.init hashFn V T)).chunk_servers a = some info →
      ((runOps ops (Coordinator.init hashFn V T)).consistent_hash.ring.filter
        (fun p => decide (p.2 = a))).length =
        (if info.status = ChunkServerStatus.HEALTHY ∨
            info.status = ChunkServerStatus.SUSPECT
          then V else 0)) := by
  have hinit := init_inv hashFn V T
  have hok0 : chHashOk (Coordinator.init hashFn V T) (opAddrs ops) := hok
  obtain ⟨f1, f2, f3, f4, f5⟩ := runOps_inv (opAddrs ops) ops
    (Coordinator.init hashFn V T) hinit hok0
    (by intro x hx; simp [stAddrs, Coordinator.init] at hx) (fun a ha => ha)
  have hokF : chHashOk (runOps ops (Coordinator.init hashFn V T)) (opAddrs ops) := by
    unfold chHashOk
    rw [f3, f4]
    exact hok
  have hVF : 1 ≤ (runOps ops (Coordinator.init hashFn V T)).consistent_hash.virtual_nodes := by
    rw [f4]
    exact hV
  obtain ⟨g1, g2⟩ := inv_ring_membership _ _ f1 hokF f2 hVF
  refine ⟨g1, ?_⟩
  intro a info hl
  have hcount := g2 a info hl
  rw [f4] at hcount
  exact hcount

/-- Witness for C2's amended theorem: the concrete three-event run leaves the
single HEALTHY server with its 2 ring entries. -/
theorem C2_ring_membership_witness :
    ((runOps [Op.register "a", Op.heartbeat "a" 7 100, Op.sweep 100]
        (Coordinator.init egHash 2 10)).consistent_hash.ring.filter
      (fun p => decide (p.2 = "a"))).length = 2 := by
  have h := (C2_ring_membership egHash 2 10 (by decide)
    [Op.register "a", Op.heartbeat "a" 7 100, Op.sweep 100] (by decide)).2 "a"
    { status := ChunkServerStatus.HEALTHY, remains := 7, last_update := 100,
      chunks := [] } (by decide)
  simpa using h

/-! ### C6: heartbeat state-machine progression -/

/-- C6: for a HEALTHY server in an invariant-respecting coordinator state
(collision-free digest on its addresses), a sweep at a time `now1` with
`now1 − last_update > interval` makes it SUSPECT while all its virtual-node
entries stay on the ring; a second sweep still past the deadline makes it
FAILED and removes every entry of it from the ring (the removal triggers the
redistribution callback, a TODO stub); instead, a heartbeat between the two
sweeps makes the second sweep restore HEALTHY. -/
theorem C6_state_machine_progression (st : CoordState) (A : List String)
    (a : String) (info : ServerInfo)
    (hInv : Inv st) (hok : chHashOk st A) (hsub : stAddrs st ⊆ A)
    (hlook : alookup st.chunk_servers a = some info)
    (hstatus : info.status = ChunkServerStatus.HEALTHY)
    (now1 : Nat)
    (h1 : ¬ (now1 - info.last_update ≤ st.heartbeat_check_interval)) :
    ((alookup (Coordinator.heartbeat_check now1 st).chunk_servers a).map
      ServerInfo.status = some ChunkServerStatus.SUSPECT) ∧
    (∀ h ∈ vnodeHashes st.consistent_hash.hashFn
        st.consistent_hash.virtual_nodes a,
      (h, a) ∈ (Coordinator.heartbeat_check now1 st).consistent_hash.ring) ∧
    (∀ now2, ¬ (now2 - info.last_update ≤ st.heartbeat_check_interval) →
      ((alookup (Coordinator.heartbeat_check now2
          (Coordinator.heartbeat_check now1 st)).chunk_servers a).map
        ServerInfo.status = some ChunkServerStatus.FAILED) ∧
      (∀ p ∈ (Coordinator.heartbeat_check now2
          (Coordinator.heartbeat_check now1 st)).consistent_hash.ring, p.2 ≠ a)) ∧
    (∀ remains tH now2, now2 - tH ≤ st.heartbeat_check_interval →
      (alookup (Coordinator.heartbeat_check now2
          (Coordinator.heartbeat (Coordinator.heartbeat_check now1 st) a remains tH)).chunk_servers
        a).map ServerInfo.status = some ChunkServerStatus.HEALTHY) := by
  obtain ⟨r1, r2, r3, r4, r5, r6, r7⟩ := heartbeat_check_effect now1 st A hInv hok hsub
  have hok1 : chHashOk (Coordinator.heartbeat_check now1 st) A := by
    unfold chHashOk at hok ⊢
    rw [r3, r4]
    exact hok
  have hsub1 : stAddrs (Coordinator.heartbeat_check now1 st) ⊆ A := by
    rw [r2]
    exact hsub
  have hs1 : (alookup (Coordinator.heartbeat_check now1 st).chunk_servers a).map
      ServerInfo.status = some ChunkServerStatus.SUSPECT := by
    rw [r6 a, hlook]
    simp [sweepStatus, h1, hstatus]
  obtain ⟨info1, hlook1, hst1eq⟩ : ∃ info1,
      alookup (Coordinator.heartbeat_check now1 st).chunk_servers a = some info1 ∧
      info1.status = ChunkServerStatus.SUSPECT := by
    cases hc : alookup (Coordinator.heartbeat_check now1 st).chunk_servers a with
    | none =>
      rw [hc] at hs1
      simp at hs1
    | some w =>
      rw [hc] at hs1
      simp at hs1
      exact ⟨w, rfl, hs1⟩
  have hlu1 : info1.last_update = info.last_update := by
    have := r7 a
    rw [hlook1, hlook] at this
    simp at this
    exact this
  refine ⟨hs1, ?_, ?_, ?_⟩
  · intro h hv
    apply r1.2.2.2 (a, info1) (mem_of_alookup_eq_some _ _ _ hlook1) (Or.inr hst1eq)
    rw [r3, r4]
    exact hv
  · intro now2 h2
    obtain ⟨q1, q2, q3, q4, q5, q6, q7⟩ := heartbeat_check_effect now2
      (Coordinator.heartbeat_check now1 st) A r1 hok1 hsub1
    have hs2 : (alookup (Coordinator.heartbeat_check now2
        (Coordinator.heartbeat_check now1 st)).chunk_servers a).map
        ServerInfo.status = some ChunkServerStatus.FAILED := by
      rw [q6 a, hlook1]
      have hfr : ¬ (now2 - info1.last_update ≤
          (Coordinator.heartbeat_check now1 st).heartbeat_check_interval) := by
        rw [hlu1, r5]
        exact h2
      simp [sweepStatus, hfr, hst1eq]
    refine ⟨hs2, ?_⟩
    intro p hp hc
    have hHS := (q1.2.2.1 p hp).1
    rw [hc] at hHS
    cases hc2 : alookup (Coordinator.heartbeat_check now2
        (Coordinator.heartbeat_check now1 st)).chunk_servers a with
    | none =>
      rw [hc2] at hHS
      exact absurd hHS (by simp [statusHS])
    | some w =>
      rw [hc2] at hs2
      simp at hs2
      rw [hc2] at hHS
      rw [statusHS_some, hs2] at hHS
      rcases hHS with hc3 | hc3 <;> simp at hc3
  · intro remains tH now2 h3
    have hw : Coordinator.heartbeat (Coordinator.heartbeat_check now1 st) a remains tH =
        { Coordinator.heartbeat_check now1 st with
          chunk_servers := aset (Coordinator.heartbeat_check now1 st).chunk_servers a
            ({ info1 with last_update := tH, remains := remains }) } := by
      simp [Coordinator.heartbeat, hlook1]
    obtain ⟨w1, w2, w3, w4, w5⟩ := runOp_inv (Coordinator.heartbeat_check now1 st)
      (Op.heartbeat a remains tH) A r1 hok1 hsub1 (by intro a0 hc; simp at hc)
    have hok2 : chHashOk (Coordinator.heartbeat
        (Coordinator.heartbeat_check now1 st) a remains tH) A := by
      show chHashOk (runOp (Coordinator.heartbeat_check now1 st)
        (Op.heartbeat a remains tH)) A
      unfold chHashOk at hok1 ⊢
      rw [w3, w4]
      exact hok1
    obtain ⟨s1, s2, s3, s4, s5, s6, s7⟩ := heartbeat_check_effect now2
      (Coordinator.heartbeat (Coordinator.heartbeat_check now1 st) a remains tH) A
      w1 hok2 w2
    rw [s6 a, hw]
    rw [alookup_aset_self]
    have hT : ({ Coordinator.heartbeat_check now1 st with
        chunk_servers := aset (Coordinator.heartbeat_check now1 st).chunk_servers a
          ({ info1 with last_update := tH, remains := remains }) } :
        CoordState).heartbeat_check_interval = st.heartbeat_check_interval := r5
    rw [hT]
    simp [sweepStatus, h3]

/-- Witness for C6 at concrete inputs: `egActive`'s server `"a"` (HEALTHY,
last heartbeat 100, interval 10) goes SUSPECT at the 200-sweep, FAILED at
the 300-sweep, and back to HEALTHY when it heartbeats at 250 before a
255-sweep. -/
theorem C6_state_machine_progression_witness :
    ((alookup (Coordinator.heartbeat_check 200 egActive).chunk_servers "a").map
      ServerInfo.status = some ChunkServerStatus.SUSPECT) ∧
    ((alookup (Coordinator.heartbeat_check 300
        (Coordinator.heartbeat_check 200 egActive)).chunk_servers "a").map
      ServerInfo.status = some ChunkServerStatus.FAILED) ∧
    ((alookup (Coordinator.heartbeat_check 255
        (Coordinator.heartbeat (Coordinator.heartbeat_check 200 egActive) "a" 0 250)).chunk_servers
      "a").map ServerInfo.status = some ChunkServerStatus.HEALTHY) := by
  have h := C6_state_machine_progression egActive ["a"] "a"
    { status := ChunkServerStatus.HEALTHY, remains := 7, last_update := 100,
      chunks := [] }
    (by decide) (by decide) (by decide) (by decide) rfl 200 (by decide)
  exact ⟨h.1, (h.2.2.1 300 (by decide)).1, h.2.2.2 0 250 255 (by decide)⟩

end MiniGFS
